import Mathlib

/-!
# Bounded dispatch of a per-device operation: filter, dispatcher, aggregator

A verification development over a shallow embedding of
`go/pan-os-request-wildfire-registration/main.go` (hostname filter, semaphore-bounded
worker goroutines, result collection loop) and of `isOlderThanMinutes` in
`go/pan-os-session-analyzer/main.go`.

Go strings are modelled as lists of Unicode code points (`List Char`), which is exact
for the valid UTF-8 strings the programs handle: substring search and space trimming
on valid UTF-8 bytes coincide with the same operations on code points.
-/

namespace Wildfire

/-! ## Go strings and the standard-library functions the sources call -/

/-- A Go `string`, as its sequence of code points. -/
abbrev GoString := List Char

/-- The string `s` begins with `sub` (Go `strings.HasPrefix(s, sub)`). -/
def startsWith : GoString → GoString → Bool
  | _, [] => true
  | [], _ :: _ => false
  | c :: s, d :: sub => c == d && startsWith s sub

/-- Go `strings.Contains(s, sub)`: `sub` occurs in `s` at some offset
(the empty string occurs in every string). -/
def stringsContains : GoString → GoString → Bool
  | [], sub => startsWith [] sub
  | c :: s, sub => startsWith (c :: s) sub || stringsContains s sub

/-- Go `unicode.IsSpace`: the Latin-1 spaces `\t \n \v \f \r`, space, U+0085, U+00A0,
and the other code points with the White_Space property. -/
def isSpace (c : Char) : Bool :=
  let n := c.toNat
  (9 ≤ n && n ≤ 13) || n == 32 || n == 133 || n == 160 || n == 5760 ||
  (8192 ≤ n && n ≤ 8202) || n == 8232 || n == 8233 || n == 8239 || n == 8287 || n == 12288

/-- Go `strings.TrimSpace`: all leading and trailing white space removed. -/
def trimSpace (s : GoString) : GoString :=
  ((s.dropWhile isSpace).reverse.dropWhile isSpace).reverse

/-- Splitting at every comma: the pieces of `strings.Split(s, ",")` for a
non-empty `s`, as the current piece followed by the remaining pieces. -/
def splitComma : GoString → GoString × List GoString
  | [] => ([], [])
  | c :: s =>
    let r := splitComma s
    if c == ',' then ([], r.1 :: r.2) else (c :: r.1, r.2)

/-- Go `strings.Split(s, ",")`. -/
def stringsSplitComma (s : GoString) : List GoString :=
  let r := splitComma s
  r.1 :: r.2

/-! ## Devices and the hostname filter -/

/-- A device descriptor, `map[string]string`, as an association list. -/
abbrev Device := List (GoString × GoString)

/-- Map indexing `device[key]`: the value stored under `key`, or the empty
string when the key is absent. -/
def Device.index (d : Device) (key : GoString) : GoString :=
  (d.lookup key).getD []

/-- The key `"hostname"`. -/
def hostnameKey : GoString := "hostname".toList

/-- `parseHostnameFilters`: no filters for the empty string, otherwise the
comma-separated pieces. -/
def parseHostnameFilters (filterString : GoString) : List GoString :=
  if filterString = [] then [] else stringsSplitComma filterString

/-- The inner loop of `filterDevices`: does some filter, trimmed, occur in
`hostname`?  The loop stops (`break`) at the first filter that does. -/
def matchesAny (hostname : GoString) : List GoString → Bool
  | [] => false
  | filter :: rest =>
    if stringsContains hostname (trimSpace filter) then true else matchesAny hostname rest

/-- The outer loop of `filterDevices`, appending to `filteredDevices`. -/
def filterLoop (filters : List GoString) :
    List Device → List Device → List Device
  | [], filteredDevices => filteredDevices
  | device :: rest, filteredDevices =>
    let hostname := device.index hostnameKey
    if matchesAny hostname filters then filterLoop filters rest (filteredDevices ++ [device])
    else filterLoop filters rest filteredDevices

/-- `filterDevices` (logging left out). -/
def filterDevices (devices : List Device) (filters : List GoString) : List Device :=
  if filters.length = 0 then devices else filterLoop filters devices []

/-- A device that carries only a hostname (used in examples). -/
def named (h : String) : Device := [(hostnameKey, h.toList)]

/-! ## Outcomes and the collection loop -/

/-- What `registerWildFireScrapli` returns: `none` for `nil`, `some e` for an
error whose text is `e`. -/
abbrev OpResult := Option GoString

/-- The text the collection loop looks for in a received outcome. -/
def successMarker : GoString := "Successfully registered".toList

/-- The outcome string a worker sends on `results`:
`fmt.Sprintf("%s: Failed to register WildFire - %v", dev["hostname"], err)` when the
operation returned an error, `fmt.Sprintf("%s: Successfully registered WildFire",
dev["hostname"])` otherwise. -/
def workerOutcome (dev : Device) (err : OpResult) : GoString :=
  match err with
  | some e => dev.index hostnameKey ++ ": Failed to register WildFire - ".toList ++ e
  | none => dev.index hostnameKey ++ ": Successfully registered WildFire".toList

/-- The two counters of the collection loop. -/
structure Tally where
  successCount : Nat
  failureCount : Nat
deriving DecidableEq, Repr

/-- What one iteration of the collection loop's `select` finds. -/
inductive Event
  /-- Receive `result, ok := <-results` with `ok = true`. -/
  | result (r : GoString)
  /-- Receive with `ok = false`: the channel is closed and empty. -/
  | closed
  /-- The `time.After(6 * time.Minute)` case fired. -/
  | timeout
deriving DecidableEq, Repr

/-- One iteration of the collection loop.  On a closed channel the `break`
leaves the `select` only, so the iteration ends with both counters unchanged. -/
def collectIter (t : Tally) : Event → Tally
  | .result r =>
    if stringsContains r successMarker then { t with successCount := t.successCount + 1 }
    else { t with failureCount := t.failureCount + 1 }
  | .closed => t
  | .timeout => { t with failureCount := t.failureCount + 1 }

/-- The collection loop run over the events its iterations find, from
`successCount := 0`, `failureCount := 0`. -/
def collectLoop (events : List Event) : Tally :=
  events.foldl collectIter ⟨0, 0⟩

/-! ## The dispatcher, the watcher and the collection loop as a transition system -/

/-- Where a worker goroutine stands in its body. -/
inductive Pc
  /-- Started, before `sem <- struct{}{}`. -/
  | spawned
  /-- Token sent to `sem`; `registerWildFireScrapli` has not returned. -/
  | acquired
  /-- The operation has returned `err`; nothing sent on `results` yet. -/
  | operated (err : OpResult)
  /-- The outcome has been sent on `results`. -/
  | published
  /-- The deferred `<-sem` has run. -/
  | released
  /-- The deferred `wg.Done()` has run. -/
  | done
deriving DecidableEq, Repr

/-- The worker has sent its token and not yet taken it back. -/
def Pc.holds : Pc → Bool
  | .acquired => true
  | .operated _ => true
  | .published => true
  | _ => false

/-- The worker has sent its outcome on `results`. -/
def Pc.sent : Pc → Bool
  | .published => true
  | .released => true
  | .done => true
  | _ => false

/-- How many of its five actions a worker has performed. -/
def Pc.rank : Pc → Nat
  | .spawned => 0
  | .acquired => 1
  | .operated _ => 2
  | .published => 3
  | .released => 4
  | .done => 5

/-- One observation of the collection loop, with the worker a received outcome came
from (the sender is not part of the Go value; it is recorded for the proofs). -/
inductive Obs
  | received (w : Nat) (r : GoString)
  | closed
  | timedOut
deriving DecidableEq, Repr

/-- The event an observation stands for. -/
def Obs.event : Obs → Event
  | .received _ r => .result r
  | .closed => .closed
  | .timedOut => .timeout

/-- The sender of a received outcome. -/
def Obs.sender : Obs → Option Nat
  | .received w _ => some w
  | _ => none

/-- State of a run: worker positions, the `sem` and `results` channels, and
the locals of the collection loop. -/
structure State where
  /-- One position per worker, worker `w` serving `deviceList[w]`. -/
  pcs : List Pc
  /-- Number of tokens buffered in `sem`. -/
  sem : Nat
  /-- Outcomes buffered in `results`, oldest first, each with its sender. -/
  results : List (Nat × GoString)
  /-- Whether `close(results)` has run. -/
  closed : Bool
  /-- The loop variable `i`. -/
  i : Nat
  /-- The counters `successCount`, `failureCount`. -/
  tally : Tally
  /-- The observations of the iterations completed so far, in order. -/
  obs : List Obs
deriving DecidableEq, Repr

/-- The atomic actions of a run. -/
inductive Action
  /-- Worker `w`: `sem <- struct{}{}`. -/
  | acquire (w : Nat)
  /-- Worker `w`: `registerWildFireScrapli` returns `err`. -/
  | operate (w : Nat) (err : OpResult)
  /-- Worker `w`: `results <- fmt.Sprintf(...)`. -/
  | publish (w : Nat)
  /-- Worker `w`: deferred `<-sem`. -/
  | release (w : Nat)
  /-- Worker `w`: deferred `wg.Done()`. -/
  | signal (w : Nat)
  /-- Watcher: `wg.Wait()` has returned, `close(results)`. -/
  | close
  /-- Loop: the `select` takes the `<-results` case. -/
  | recv
  /-- Loop: the `select` takes the `<-time.After(...)` case. -/
  | timeout
deriving DecidableEq, Repr

/-- State after the `for i, device := range deviceList` loop has started the
workers: `results` and `sem` empty, counters zero. -/
def init (devs : List Device) : State :=
  { pcs := List.replicate devs.length .spawned, sem := 0, results := [], closed := false,
    i := 0, tally := ⟨0, 0⟩, obs := [] }

/-- One atomic action, `none` when the action cannot be taken in `s` (the
goroutine is elsewhere in its body, or the channel operation would block).
`results` has capacity `len(deviceList)`, `sem` has capacity `C`.  The timeout
case is taken only by a `select` that found nothing to receive. -/
def step (devs : List Device) (C : Nat) (s : State) : Action → Option State
  | .acquire w =>
    match s.pcs[w]? with
    | some .spawned =>
      if s.sem < C then some { s with pcs := s.pcs.set w .acquired, sem := s.sem + 1 }
      else none
    | _ => none
  | .operate w err =>
    match s.pcs[w]? with
    | some .acquired => some { s with pcs := s.pcs.set w (.operated err) }
    | _ => none
  | .publish w =>
    match s.pcs[w]?, devs[w]? with
    | some (.operated err), some dev =>
      if s.results.length < devs.length ∧ s.closed = false then
        some { s with pcs := s.pcs.set w .published,
                      results := s.results ++ [(w, workerOutcome dev err)] }
      else none
    | _, _ => none
  | .release w =>
    match s.pcs[w]? with
    | some .published =>
      if 0 < s.sem then some { s with pcs := s.pcs.set w .released, sem := s.sem - 1 }
      else none
    | _ => none
  | .signal w =>
    match s.pcs[w]? with
    | some .released => some { s with pcs := s.pcs.set w .done }
    | _ => none
  | .close =>
    if s.pcs.all (fun pc => pc == .done) ∧ s.closed = false then
      some { s with closed := true }
    else none
  | .recv =>
    if s.i < devs.length then
      match s.results with
      | (w, r) :: rest =>
        some { s with results := rest, i := s.i + 1,
                      tally := collectIter s.tally (.result r),
                      obs := s.obs ++ [.received w r] }
      | [] =>
        if s.closed then
          some { s with i := s.i + 1, tally := collectIter s.tally .closed,
                        obs := s.obs ++ [.closed] }
        else none
    else none
  | .timeout =>
    if s.i < devs.length ∧ s.results = [] ∧ s.closed = false then
      some { s with i := s.i + 1, tally := collectIter s.tally .timeout,
                    obs := s.obs ++ [.timedOut] }
    else none

/-- Running a schedule of actions from `s`; `none` when some action cannot be
taken. -/
def run (devs : List Device) (C : Nat) (s : State) : List Action → Option State
  | [] => some s
  | a :: as => (step devs C s a).bind (fun s1 => run devs C s1 as)

/-- Number of workers holding a token. -/
def holders (s : State) : Nat := s.pcs.countP Pc.holds

/-- The workers whose outcome the loop has received, in order of reception. -/
def receivedFrom (s : State) : List Nat := s.obs.filterMap Obs.sender

/-- The workers whose outcome is buffered in `results`. -/
def buffered (s : State) : List Nat := s.results.map Prod.fst

/-- Number of iterations that timed out. -/
def timeouts (s : State) : Nat := s.obs.count .timedOut

/-- Every worker has run to the end of its body. -/
def allDone (s : State) : Prop := ∀ pc ∈ s.pcs, pc = Pc.done

/-- The five actions of a worker body. -/
inductive WorkerStep
  | acquire
  | operate
  | publish
  | release
  | signal
deriving DecidableEq, Repr

/-- The order of the worker body: send to `sem`, call the operation, send the outcome,
then the deferred calls in reverse order of their `defer`: receive from `sem`,
`wg.Done()`. -/
def workerSequence : List WorkerStep :=
  [.acquire, .operate, .publish, .release, .signal]

/-- The worker step an action is, when it is an action of worker `w`. -/
def Action.workerStep (w : Nat) : Action → Option WorkerStep
  | .acquire v => if v = w then some .acquire else none
  | .operate v _ => if v = w then some .operate else none
  | .publish v => if v = w then some .publish else none
  | .release v => if v = w then some .release else none
  | .signal v => if v = w then some .signal else none
  | _ => none

/-- The actions of worker `w` in a schedule, in order. -/
def workerTrace (w : Nat) (acts : List Action) : List WorkerStep :=
  acts.filterMap (Action.workerStep w)

/-- The device an observation made in iteration `k` (counted from 0) is reported for:
the sender of a received outcome, and device `k` for a timeout, which the loop prints
as `Timeout waiting for result from device k+1`. -/
def Obs.device (k : Nat) : Obs → Option Nat
  | .received w _ => some w
  | .timedOut => some k
  | .closed => none

/-- The devices the observations of positions `k`, `k+1`, ... are reported for. -/
def devicesFrom : Nat → List Obs → List Nat
  | _, [] => []
  | k, o :: rest =>
    match o.device k with
    | some d => d :: devicesFrom (k + 1) rest
    | none => devicesFrom (k + 1) rest

/-- The devices the observations of a state are reported for, in order. -/
def representedDevices (s : State) : List Nat := devicesFrom 0 s.obs

/-- The correspondence between observations and devices: every device is
represented by exactly one observation and no published outcome is left unread. -/
def OneToOne (devs : List Device) (s : State) : Prop :=
  (∀ d, d < devs.length → (representedDevices s).count d = 1) ∧ s.results = []

instance (devs : List Device) (s : State) : Decidable (OneToOne devs s) := by
  unfold OneToOne; infer_instance

/-- The invariant of the states a run passes through. -/
structure Inv (devs : List Device) (C : Nat) (s : State) : Prop where
  len : s.pcs.length = devs.length
  semHolders : s.sem = holders s
  semLe : s.sem ≤ C
  closedDone : s.closed = true → allDone s
  obsLen : s.obs.length = s.i
  iLe : s.i ≤ devs.length
  tallyEq : s.tally = collectLoop (s.obs.map Obs.event)
  sentIff : ∀ w, w ∈ receivedFrom s ++ buffered s ↔ ∃ pc, s.pcs[w]? = some pc ∧ pc.sent = true
  nodup : (receivedFrom s ++ buffered s).Nodup
  noClosed : Obs.closed ∉ s.obs
  outcomes : ∀ w r, (Obs.received w r ∈ s.obs ∨ (w, r) ∈ s.results) →
    ∃ dev err, devs[w]? = some dev ∧ r = workerOutcome dev err

instance (s : State) : Decidable (allDone s) := by
  unfold allDone; infer_instance

/-- The action sends an outcome on `results`. -/
def Action.isPublish : Action → Bool
  | .publish _ => true
  | _ => false

/-- Two devices, used in the examples. -/
def twoDevices : List Device := [named "edge-01", named "core-02"]

/-- A run over `twoDevices` with one token: the first operation succeeds, the
second fails, and both outcomes are received. -/
def orderlySchedule : List Action :=
  [.acquire 0, .operate 0 none, .publish 0, .recv, .release 0, .signal 0,
   .acquire 1, .operate 1 (some "refused".toList), .publish 1, .release 1, .signal 1,
   .close, .recv]

/-- A run over `twoDevices` with two tokens in which both operations are still
running when the first iteration times out, and both succeed afterwards. -/
def slowSchedule : List Action :=
  [.acquire 0, .acquire 1, .timeout, .operate 0 none, .publish 0, .recv,
   .operate 1 none, .publish 1, .release 0, .signal 0, .release 1, .signal 1, .close]

/-- The state `orderlySchedule` ends in. -/
def orderlyFinal : State :=
  { pcs := [.done, .done], sem := 0, results := [], closed := true, i := 2,
    tally := ⟨1, 1⟩,
    obs := [.received 0 "edge-01: Successfully registered WildFire".toList,
            .received 1 "core-02: Failed to register WildFire - refused".toList] }

/-- The state after the first eight actions of `orderlySchedule`: the second
worker is about to send its outcome. -/
def orderlyMiddle : State :=
  { pcs := [.done, .operated (some "refused".toList)], sem := 1, results := [],
    closed := false, i := 1, tally := ⟨1, 0⟩,
    obs := [.received 0 "edge-01: Successfully registered WildFire".toList] }

/-- The state `slowSchedule` ends in. -/
def slowFinal : State :=
  { pcs := [.done, .done], sem := 0,
    results := [(1, "core-02: Successfully registered WildFire".toList)],
    closed := true, i := 2, tally := ⟨1, 1⟩,
    obs := [.timedOut, .received 0 "edge-01: Successfully registered WildFire".toList] }

/-- The devices whose outcome the loop has not received. -/
def unreceived (devs : List Device) (s : State) : List Nat :=
  (List.range devs.length).filter (fun d => !decide (d ∈ receivedFrom s))

/-- Code side: the iteration takes the `successCount++` branch, that is, the loop's
test `strings.Contains(result, "Successfully registered")` holds of the string it
received.  This says nothing about what the operation behind the outcome returned;
for that see `Found.isSuccessOutcome`. -/
def Event.countedSuccess : Event → Bool
  | .result r => stringsContains r successMarker
  | _ => false

/-- Code side: the iteration receives a string and takes the `else` branch,
`failureCount++`, because the loop's test fails on it.  This says nothing about what
the operation behind the outcome returned; for that see `Found.isFailureOutcome`. -/
def Event.countedFailure : Event → Bool
  | .result r => !stringsContains r successMarker
  | _ => false

/-- The select case was the timeout. -/
def Event.isTimeout : Event → Bool
  | .timeout => true
  | _ => false

/-- The receive found the channel closed. -/
def Event.isClosed : Event → Bool
  | .closed => true
  | _ => false

/-- What one iteration that does not find the channel closed finds, together with what
lies behind a received outcome: the device and what its operation returned. -/
inductive Found
  /-- The iteration receives the outcome the worker of `dev` published after its
  operation returned `err`. -/
  | outcome (dev : Device) (err : OpResult)
  /-- The iteration times out. -/
  | timeout
deriving DecidableEq, Repr

/-- The event the loop sees: the published string, or the timeout. -/
def Found.event : Found → Event
  | .outcome dev err => .result (workerOutcome dev err)
  | .timeout => .timeout

/-- The iteration received a success outcome: one published for an operation that
returned no error. -/
def Found.isSuccessOutcome : Found → Bool
  | .outcome _ none => true
  | _ => false

/-- The iteration received a failure outcome: one published for an operation that
returned an error. -/
def Found.isFailureOutcome : Found → Bool
  | .outcome _ (some _) => true
  | _ => false

/-- The iteration timed out. -/
def Found.isTimeout : Found → Bool
  | .timeout => true
  | _ => false

/-- Three iterations: the outcome of a succeeding operation, a timeout, and the
outcome of an operation that failed with the error
`unexpected command output: Successfully registered`. -/
def mislabelledRun : List Found :=
  [.outcome (named "edge-01") none, .timeout,
   .outcome (named "fw1")
     (some "unexpected command output: Successfully registered".toList)]

/-! ## The collection loop against an arbitrary use of the channel

The loop alone, with `results` sent to and closed by its environment in any way the
channel allows, the channel being closed early included. -/

/-- What the collection loop writes. -/
inductive Output
  /-- The call `fmt.Println(result)`. -/
  | println (line : GoString)
  /-- A line written by `logger.Info`. -/
  | info (msg : GoString)
  /-- The call `fmt.Printf("Timeout waiting for result from device %d\n", device)`. -/
  | timeoutFor (device : Nat)
deriving DecidableEq, Repr

/-- Default of the flag `debug`. -/
def debugDefault : Int := 0

/-- Default of the flag `verbose`. -/
def verboseDefault : Bool := false

/-- The level `main` gives its logger: `*debugLevel` and `*verbose` are read before
`flag.Parse()` runs, so they hold the defaults of their flags. -/
def mainDebugLevel : Int := if verboseDefault then 1 else debugDefault

/-- The method `Logger.Info`: writes when `debugLevel >= 0`. -/
def loggerInfo (debugLevel : Int) (msg : GoString) : List Output :=
  if debugLevel ≥ 0 then [.info msg] else []

/-- The message logged on a receive from the closed channel. -/
def closedMessage : GoString := "Results channel closed unexpectedly".toList

/-- What iteration `i` of the loop writes on the event it finds. -/
def iterOutput (debugLevel : Int) (i : Nat) : Event → List Output
  | .result r => [.println r]
  | .closed => loggerInfo debugLevel closedMessage
  | .timeout =>
    loggerInfo debugLevel "Timeout waiting for result".toList ++ [.timeoutFor (i + 1)]

/-- State of the loop and of the channel it reads. -/
structure LoopState where
  /-- Outcomes buffered in `results`, oldest first. -/
  buf : List GoString
  /-- Whether `results` has been closed. -/
  closed : Bool
  /-- The loop variable `i`. -/
  i : Nat
  /-- The counters `successCount`, `failureCount`. -/
  tally : Tally
  /-- The events the completed iterations found, in order. -/
  seen : List Event
  /-- Everything the loop has written, in order. -/
  output : List Output
deriving DecidableEq, Repr

/-- The atomic actions of the loop and of its environment. -/
inductive LoopAction
  /-- Some goroutine sends `r` on `results`. -/
  | send (r : GoString)
  /-- Some goroutine closes `results`. -/
  | close
  /-- Loop: the `select` takes the `<-results` case. -/
  | recv
  /-- Loop: the `select` takes the `<-time.After(...)` case. -/
  | timeout
deriving DecidableEq, Repr

/-- Before the first iteration: `results` empty and open, counters zero. -/
def loopInit : LoopState :=
  { buf := [], closed := false, i := 0, tally := ⟨0, 0⟩, seen := [], output := [] }

/-- One atomic action over a device list of length `n` (the capacity of `results` and
the number of iterations), `none` when it cannot be taken: a send needs room in an open
channel, a close an open channel, a receive a buffered outcome or a closed channel, and
the timeout case is taken only by a `select` that found nothing to receive. -/
def loopStep (n : Nat) (debugLevel : Int) (s : LoopState) : LoopAction → Option LoopState
  | .send r =>
    if s.buf.length < n ∧ s.closed = false then some { s with buf := s.buf ++ [r] }
    else none
  | .close =>
    if s.closed = false then some { s with closed := true } else none
  | .recv =>
    if s.i < n then
      match s.buf with
      | r :: rest =>
        some { s with buf := rest, i := s.i + 1,
                      tally := collectIter s.tally (.result r),
                      seen := s.seen ++ [.result r],
                      output := s.output ++ iterOutput debugLevel s.i (.result r) }
      | [] =>
        if s.closed then
          some { s with i := s.i + 1, tally := collectIter s.tally .closed,
                        seen := s.seen ++ [.closed],
                        output := s.output ++ iterOutput debugLevel s.i .closed }
        else none
    else none
  | .timeout =>
    if s.i < n ∧ s.buf = [] ∧ s.closed = false then
      some { s with i := s.i + 1, tally := collectIter s.tally .timeout,
                    seen := s.seen ++ [.timeout],
                    output := s.output ++ iterOutput debugLevel s.i .timeout }
    else none

/-- Running a schedule of loop and environment actions from `s`. -/
def loopRun (n : Nat) (debugLevel : Int) (s : LoopState) :
    List LoopAction → Option LoopState
  | [] => some s
  | a :: as => (loopStep n debugLevel s a).bind (fun s1 => loopRun n debugLevel s1 as)

/-- The invariant of the states a loop run passes through. -/
structure LoopInv (n : Nat) (debugLevel : Int) (s : LoopState) : Prop where
  seenLen : s.seen.length = s.i
  iLe : s.i ≤ n
  tallyEq : s.tally = collectLoop s.seen
  shape : (∀ e ∈ s.seen, e.isClosed = false) ∨
    (s.closed = true ∧ s.buf = [] ∧
      ∃ pre k, s.seen = pre ++ List.replicate (k + 1) Event.closed ∧
        ∀ e ∈ pre, e.isClosed = false)
  logged : 0 ≤ debugLevel →
    s.output.count (.info closedMessage) = s.seen.count .closed

/-- A run over three devices in which `results` is closed after a single outcome:
the loop receives it and then finds the channel closed twice. -/
def earlyCloseSchedule : List LoopAction :=
  [.send "edge-01: Successfully registered WildFire".toList, .close, .recv, .recv, .recv]

/-- The state `earlyCloseSchedule` ends in. -/
def earlyCloseFinal : LoopState :=
  { buf := [], closed := true, i := 3, tally := ⟨1, 0⟩,
    seen := [.result "edge-01: Successfully registered WildFire".toList, .closed, .closed],
    output := [.println "edge-01: Successfully registered WildFire".toList,
               .info closedMessage, .info closedMessage] }

end Wildfire

namespace SessionAnalyzer

open Wildfire (GoString)

/-! ## `isOlderThanMinutes` of the session analyzer

Instants are integer nanosecond counts on one time line; `time.Duration` is an `int64`
nanosecond count. -/

/-- The smallest `time.Duration`, `-1 << 63`. -/
def minDuration : Int := -9223372036854775808

/-- The largest `time.Duration`, `1<<63 - 1`. -/
def maxDuration : Int := 9223372036854775807

/-- The constant `time.Minute`, in nanoseconds. -/
def minuteNs : Int := 60000000000

/-- A mathematical integer reduced to the `int64` it is stored as. -/
def wrapInt64 (x : Int) : Int := (x + 9223372036854775808) % 18446744073709551616 - 9223372036854775808

/-- The method `now.Sub(t)` on wall-clock instants: the difference, saturated to
`minDuration` or `maxDuration` when it does not fit a `Duration`. -/
def timeSub (now t : Int) : Int :=
  if now - t > maxDuration then maxDuration
  else if now - t < minDuration then minDuration
  else now - t

/-- `isOlderThanMinutes`, with `time.Parse("Mon Jan 2 15:04:05 2006", ·)` as the
parameter `parse` and the clock reading of `time.Since` as the parameter `now`.
The second component is the returned error (`none` for `nil`). -/
def isOlderThanMinutes (parse : GoString → Except GoString Int) (now : Int)
    (timestamp : GoString) (minutes : Int) : Bool × Option GoString :=
  match parse timestamp with
  | .error err => (false, some ("error parsing timestamp: ".toList ++ err))
  | .ok t => (decide (timeSub now t > wrapInt64 (wrapInt64 minutes * minuteNs)), none)

end SessionAnalyzer

namespace Wildfire

/-! ## Strings -/

theorem startsWith_iff (s sub : GoString) : startsWith s sub = true ↔ sub <+: s := by
  induction sub generalizing s with
  | nil => simp [startsWith]
  | cons d sub ih =>
    cases s with
    | nil => simp [startsWith]
    | cons c s =>
      simp only [startsWith, Bool.and_eq_true, beq_iff_eq, ih, List.cons_prefix_cons]
      constructor
      · rintro ⟨h1, h2⟩; exact ⟨h1.symm, h2⟩
      · rintro ⟨h1, h2⟩; exact ⟨h1.symm, h2⟩

theorem stringsContains_iff (s sub : GoString) : stringsContains s sub = true ↔ sub <:+: s := by
  induction s with
  | nil =>
    simp only [stringsContains, startsWith_iff, List.prefix_nil, List.infix_nil]
  | cons c s ih =>
    simp only [stringsContains, Bool.or_eq_true, startsWith_iff, ih, List.infix_cons_iff]

theorem stringsContains_nil (s : GoString) : stringsContains s [] = true :=
  (stringsContains_iff s []).2 List.nil_infix

/-! ## The hostname filter -/

theorem matchesAny_eq_any (hostname : GoString) (filters : List GoString) :
    matchesAny hostname filters =
      filters.any (fun f => stringsContains hostname (trimSpace f)) := by
  induction filters with
  | nil => rfl
  | cons f rest ih =>
    simp only [matchesAny, List.any_cons, ih]
    cases stringsContains hostname (trimSpace f) <;> simp

theorem filterLoop_eq (filters : List GoString) (devices acc : List Device) :
    filterLoop filters devices acc =
      acc ++ devices.filter (fun d => matchesAny (d.index hostnameKey) filters) := by
  induction devices generalizing acc with
  | nil => simp [filterLoop]
  | cons d rest ih =>
    simp only [filterLoop, List.filter_cons]
    split
    · rw [ih]; simp
    · rw [ih]

/-- C2: with at least one pattern, `filterDevices` keeps exactly the devices whose
`"hostname"` value contains some trimmed pattern as a (case-sensitive) substring, in
input order and each once; the result is a sublist of the input. -/
theorem filterDevices_spec (devices : List Device) (filters : List GoString)
    (h : filters ≠ []) :
    filterDevices devices filters =
        devices.filter (fun d =>
          decide (∃ f ∈ filters, trimSpace f <:+: d.index hostnameKey)) ∧
      (filterDevices devices filters).Sublist devices := by
  have hlen : ¬ filters.length = 0 := by
    intro h0; exact h (List.length_eq_zero.mp h0)
  have key : filterDevices devices filters =
      devices.filter (fun d =>
        decide (∃ f ∈ filters, trimSpace f <:+: d.index hostnameKey)) := by
    simp only [filterDevices, if_neg hlen, filterLoop_eq, List.nil_append]
    apply List.filter_congr
    intro d _
    rw [matchesAny_eq_any]
    rw [Bool.eq_iff_iff]
    simp only [List.any_eq_true, stringsContains_iff, decide_eq_true_eq]
  exact ⟨key, key ▸ List.filter_sublist _⟩

/-- Instance of C2 on the patterns `edge`, `core` and the devices `edge-01`,
`core-02`, `branch-03`. -/
theorem filterDevices_spec_witness :
    ["edge".toList, "core".toList] ≠ [] ∧
    filterDevices [named "edge-01", named "core-02", named "branch-03"]
        ["edge".toList, "core".toList] = [named "edge-01", named "core-02"] ∧
    (filterDevices [named "edge-01", named "core-02", named "branch-03"]
        ["edge".toList, "core".toList]).Sublist
      [named "edge-01", named "core-02", named "branch-03"] :=
  ⟨by decide, by decide,
    (filterDevices_spec [named "edge-01", named "core-02", named "branch-03"]
      ["edge".toList, "core".toList] (by decide)).2⟩

/-- C3: with no pattern `filterDevices` returns its input unchanged, and
`parseHostnameFilters` of the empty string yields no pattern, so their composition
returns every device list unchanged. -/
theorem filterDevices_no_filters (devices : List Device) :
    filterDevices devices [] = devices ∧
      parseHostnameFilters [] = [] ∧
      filterDevices devices (parseHostnameFilters []) = devices := by
  refine ⟨rfl, rfl, rfl⟩

/-! ## Runs of the transition system -/

theorem run_append (devs : List Device) (C : Nat) (s : State) (as bs : List Action) :
    run devs C s (as ++ bs) = (run devs C s as).bind (fun s1 => run devs C s1 bs) := by
  induction as generalizing s with
  | nil => simp [run]
  | cons a as ih =>
    simp only [List.cons_append, run]
    cases step devs C s a with
    | none => simp
    | some s1 => simp [ih]

theorem run_snoc (devs : List Device) (C : Nat) (s s2 : State) (as : List Action) (a : Action)
    (h : run devs C s (as ++ [a]) = some s2) :
    ∃ s1, run devs C s as = some s1 ∧ step devs C s1 a = some s2 := by
  rw [run_append, Option.bind_eq_some] at h
  obtain ⟨s1, h1, h2⟩ := h
  refine ⟨s1, h1, ?_⟩
  simp only [run, Option.bind_eq_some] at h2
  obtain ⟨s3, h3, h4⟩ := h2
  cases h4
  exact h3

/-- Induction over the runs from the initial state, with the schedule in view. -/
theorem run_induction (devs : List Device) (C : Nat) (P : List Action → State → Prop)
    (h0 : P [] (init devs))
    (hstep : ∀ as s a s1, P as s → step devs C s a = some s1 → P (as ++ [a]) s1) :
    ∀ (acts : List Action) (s : State), run devs C (init devs) acts = some s → P acts s := by
  intro acts
  induction acts using List.reverseRecOn with
  | nil =>
    intro s h
    simp only [run, Option.some.injEq] at h
    exact h ▸ h0
  | append_singleton as a ih =>
    intro s h
    obtain ⟨s1, h1, h2⟩ := run_snoc devs C _ s as a h
    exact hstep as s1 a s (ih s1 h1) h2

/-- The shapes a step can have. -/
theorem step_elim {devs : List Device} {C : Nat} {s s1 : State} {a : Action}
    (h : step devs C s a = some s1) :
    (∃ w, a = .acquire w ∧ s.pcs[w]? = some .spawned ∧ s.sem < C ∧
      s1 = { s with pcs := s.pcs.set w .acquired, sem := s.sem + 1 }) ∨
    (∃ w err, a = .operate w err ∧ s.pcs[w]? = some .acquired ∧
      s1 = { s with pcs := s.pcs.set w (.operated err) }) ∨
    (∃ w err dev, a = .publish w ∧ s.pcs[w]? = some (.operated err) ∧ devs[w]? = some dev ∧
      s.results.length < devs.length ∧ s.closed = false ∧
      s1 = { s with pcs := s.pcs.set w .published,
                    results := s.results ++ [(w, workerOutcome dev err)] }) ∨
    (∃ w, a = .release w ∧ s.pcs[w]? = some .published ∧ 0 < s.sem ∧
      s1 = { s with pcs := s.pcs.set w .released, sem := s.sem - 1 }) ∨
    (∃ w, a = .signal w ∧ s.pcs[w]? = some .released ∧
      s1 = { s with pcs := s.pcs.set w .done }) ∨
    (a = .close ∧ allDone s ∧ s.closed = false ∧ s1 = { s with closed := true }) ∨
    (∃ w r rest, a = .recv ∧ s.i < devs.length ∧ s.results = (w, r) :: rest ∧
      s1 = { s with results := rest, i := s.i + 1,
                    tally := collectIter s.tally (.result r),
                    obs := s.obs ++ [.received w r] }) ∨
    (a = .recv ∧ s.i < devs.length ∧ s.results = [] ∧ s.closed = true ∧
      s1 = { s with i := s.i + 1, tally := collectIter s.tally .closed,
                    obs := s.obs ++ [.closed] }) ∨
    (a = .timeout ∧ s.i < devs.length ∧ s.results = [] ∧ s.closed = false ∧
      s1 = { s with i := s.i + 1, tally := collectIter s.tally .timeout,
                    obs := s.obs ++ [.timedOut] }) := by
  cases a with
  | acquire w =>
    simp only [step] at h
    split at h
    · split at h
      · cases h; exact Or.inl ⟨w, rfl, by assumption, by assumption, rfl⟩
      · cases h
    · cases h
  | operate w err =>
    simp only [step] at h
    split at h
    · cases h; exact Or.inr (Or.inl ⟨w, err, rfl, by assumption, rfl⟩)
    · cases h
  | publish w =>
    simp only [step] at h
    split at h
    · split at h
      · rename_i hg
        cases h
        exact Or.inr (Or.inr (Or.inl ⟨w, _, _, rfl, by assumption, by assumption,
          hg.1, hg.2, rfl⟩))
      · cases h
    · cases h
  | release w =>
    simp only [step] at h
    split at h
    · split at h
      · cases h
        exact Or.inr (Or.inr (Or.inr (Or.inl ⟨w, rfl, by assumption, by assumption, rfl⟩)))
      · cases h
    · cases h
  | signal w =>
    simp only [step] at h
    split at h
    · cases h
      exact Or.inr (Or.inr (Or.inr (Or.inr (Or.inl ⟨w, rfl, by assumption, rfl⟩))))
    · cases h
  | close =>
    simp only [step] at h
    split at h
    · rename_i hg
      cases h
      refine Or.inr (Or.inr (Or.inr (Or.inr (Or.inr (Or.inl ⟨rfl, ?_, hg.2, rfl⟩)))))
      intro pc hpc
      have := List.all_eq_true.mp hg.1 pc hpc
      simpa using this
    · cases h
  | recv =>
    simp only [step] at h
    split at h
    · rename_i hi
      split at h
      · rename_i w r rest hres
        cases h
        exact Or.inr (Or.inr (Or.inr (Or.inr (Or.inr (Or.inr (Or.inl
          ⟨w, r, rest, rfl, hi, hres, rfl⟩))))))
      · rename_i hres
        split at h
        · rename_i hc
          cases h
          exact Or.inr (Or.inr (Or.inr (Or.inr (Or.inr (Or.inr (Or.inr (Or.inl
            ⟨rfl, hi, hres, hc, rfl⟩)))))))
        · cases h
    · cases h
  | timeout =>
    simp only [step] at h
    split at h
    · rename_i hg
      cases h
      exact Or.inr (Or.inr (Or.inr (Or.inr (Or.inr (Or.inr (Or.inr (Or.inr
        ⟨rfl, hg.1, hg.2.1, hg.2.2, rfl⟩)))))))
    · cases h

/-! ## List facts used by the invariant -/

theorem countP_set_add {α : Type} (p : α → Bool) (l : List α) (w : Nat) (a b : α)
    (h : l[w]? = some a) :
    (l.set w b).countP p + (if p a then 1 else 0) =
      l.countP p + (if p b then 1 else 0) := by
  induction l generalizing w with
  | nil => simp at h
  | cons x l ih =>
    cases w with
    | zero =>
      simp only [List.getElem?_cons_zero, Option.some.injEq] at h
      subst h
      simp only [List.set_cons_zero, List.countP_cons]
      omega
    | succ w =>
      simp only [List.getElem?_cons_succ] at h
      have := ih w h
      simp only [List.set_cons_succ, List.countP_cons]
      omega

theorem sent_set (pcs : List Pc) (w : Nat) (old new : Pc) (h : pcs[w]? = some old) (v : Nat) :
    (∃ pc, (pcs.set w new)[v]? = some pc ∧ pc.sent = true) ↔
      if v = w then new.sent = true else ∃ pc, pcs[v]? = some pc ∧ pc.sent = true := by
  have hw : w < pcs.length := (List.getElem?_eq_some.mp h).1
  by_cases hv : v = w
  · subst hv
    simp [List.getElem?_set, hw]
  · have hne : w ≠ v := fun e => hv e.symm
    simp [List.getElem?_set_ne hne, hv]

theorem sent_set_same (pcs : List Pc) (w : Nat) (old new : Pc) (h : pcs[w]? = some old)
    (hs : new.sent = old.sent) (v : Nat) :
    (∃ pc, (pcs.set w new)[v]? = some pc ∧ pc.sent = true) ↔
      ∃ pc, pcs[v]? = some pc ∧ pc.sent = true := by
  rw [sent_set pcs w old new h v]
  by_cases hv : v = w
  · subst hv
    simp [h, hs]
  · simp [hv]

theorem allDone_getElem? {s : State} (hd : allDone s) {w : Nat} {pc : Pc}
    (h : s.pcs[w]? = some pc) : pc = .done :=
  hd pc (List.mem_iff_getElem?.mpr ⟨w, h⟩)

theorem allDone_set {pcs : List Pc} {w : Nat} {new : Pc} {pc : Pc}
    (hpc : pc ∈ pcs.set w new) :
    pc = new ∨ pc ∈ pcs := by
  obtain ⟨v, hv⟩ := List.mem_iff_getElem?.mp hpc
  rw [List.getElem?_set] at hv
  split at hv
  · split at hv
    · left; simpa using hv.symm
    · cases hv
  · right; exact List.mem_iff_getElem?.mpr ⟨v, hv⟩

theorem length_le_of_nodup_lt {l : List Nat} {n : Nat} (hn : l.Nodup) (hl : ∀ x ∈ l, x < n) :
    l.length ≤ n := by
  have hsub : l ⊆ List.range n := fun x hx => List.mem_range.mpr (hl x hx)
  simpa using (List.subperm_of_subset hn hsub).length_le

theorem le_length_of_all_mem {l : List Nat} {n : Nat} (hl : ∀ x, x < n → x ∈ l) :
    n ≤ l.length := by
  have hsub : List.range n ⊆ l := fun x hx => hl x (List.mem_range.mp hx)
  simpa using (List.subperm_of_subset (List.nodup_range n) hsub).length_le

theorem collectLoop_snoc (events : List Event) (e : Event) :
    collectLoop (events ++ [e]) = collectIter (collectLoop events) e := by
  simp [collectLoop, List.foldl_append]

/-! ## The invariant -/

theorem inv_init (devs : List Device) (C : Nat) : Inv devs C (init devs) where
  len := by simp [init]
  semHolders := by simp [init, holders, List.countP_replicate, Pc.holds]
  semLe := by simp [init]
  closedDone := by simp [init]
  obsLen := by simp [init]
  iLe := by simp [init]
  tallyEq := by simp [init, collectLoop]
  sentIff := by
    intro w
    simp only [init, receivedFrom, buffered, List.filterMap_nil, List.map_nil, List.append_nil,
      List.not_mem_nil, false_iff, not_exists, not_and]
    intro pc hpc
    rw [List.getElem?_replicate] at hpc
    split at hpc
    · cases hpc; simp [Pc.sent]
    · cases hpc
  nodup := by simp [init, receivedFrom, buffered]
  noClosed := by simp [init]
  outcomes := by simp [init]

/-- A worker moves from `old` to `new` without touching `results`. -/
theorem inv_move {devs : List Device} {C : Nat} {s : State} (hinv : Inv devs C s)
    (w : Nat) (old new : Pc) (h : s.pcs[w]? = some old) (hs : new.sent = old.sent)
    (hnd : old ≠ .done) (sem1 : Nat)
    (hsem : sem1 + (if old.holds then 1 else 0) = s.sem + (if new.holds then 1 else 0))
    (hle : sem1 ≤ C) :
    Inv devs C { s with pcs := s.pcs.set w new, sem := sem1 } where
  len := by simp [hinv.len]
  semHolders := by
    have h1 := countP_set_add Pc.holds s.pcs w old new h
    have h2 := hinv.semHolders
    simp only [holders] at h2 ⊢
    omega
  semLe := hle
  closedDone := by
    intro hc
    exact absurd (allDone_getElem? (hinv.closedDone hc) h) hnd
  obsLen := hinv.obsLen
  iLe := hinv.iLe
  tallyEq := hinv.tallyEq
  sentIff := by
    intro v
    have := hinv.sentIff v
    simp only [receivedFrom, buffered] at this ⊢
    rw [this, sent_set_same s.pcs w old new h hs v]
  nodup := hinv.nodup
  noClosed := hinv.noClosed
  outcomes := hinv.outcomes

theorem inv_publish {devs : List Device} {C : Nat} {s : State} (hinv : Inv devs C s)
    {w : Nat} {err : OpResult} {dev : Device} (h : s.pcs[w]? = some (.operated err))
    (hdev : devs[w]? = some dev) (hc : s.closed = false) :
    Inv devs C { s with pcs := s.pcs.set w .published,
                        results := s.results ++ [(w, workerOutcome dev err)] } where
  len := by simp [hinv.len]
  semHolders := by
    have h1 := countP_set_add Pc.holds s.pcs w (.operated err) .published h
    have h2 := hinv.semHolders
    simp only [holders, Pc.holds] at h1 h2 ⊢
    omega
  semLe := hinv.semLe
  closedDone := by
    intro hc1
    simp only [hc] at hc1
    cases hc1
  obsLen := hinv.obsLen
  iLe := hinv.iLe
  tallyEq := hinv.tallyEq
  sentIff := by
    intro v
    have := hinv.sentIff v
    simp only [receivedFrom, buffered] at this
    simp only [receivedFrom, buffered, List.map_append, List.map_cons, List.map_nil,
      ← List.append_assoc, List.mem_append, List.mem_singleton]
    rw [sent_set s.pcs w (.operated err) .published h v]
    by_cases hv : v = w
    · simp [hv, Pc.sent]
    · simp only [hv, or_false, if_false]
      rw [← this, List.mem_append]
  nodup := by
    have hnot : w ∉ receivedFrom s ++ buffered s := by
      rw [hinv.sentIff w]
      rintro ⟨pc, hpc, hsent⟩
      rw [h] at hpc
      cases hpc
      simp [Pc.sent] at hsent
    have hn := hinv.nodup
    simp only [receivedFrom, buffered] at hn hnot
    simp only [receivedFrom, buffered, List.map_append, List.map_cons, List.map_nil,
      ← List.append_assoc]
    rw [List.nodup_append]
    refine ⟨hn, List.nodup_singleton w, ?_⟩
    intro x hx hx1
    rw [List.mem_singleton] at hx1
    subst hx1
    exact hnot hx
  noClosed := hinv.noClosed
  outcomes := by
    intro v r hvr
    simp only [List.mem_append, List.mem_singleton, Prod.mk.injEq] at hvr
    rcases hvr with hvr | hvr | ⟨rfl, rfl⟩
    · exact hinv.outcomes v r (Or.inl hvr)
    · exact hinv.outcomes v r (Or.inr hvr)
    · exact ⟨dev, err, hdev, rfl⟩

theorem inv_close {devs : List Device} {C : Nat} {s : State} (hinv : Inv devs C s)
    (hd : allDone s) : Inv devs C { s with closed := true } where
  len := hinv.len
  semHolders := hinv.semHolders
  semLe := hinv.semLe
  closedDone := fun _ => hd
  obsLen := hinv.obsLen
  iLe := hinv.iLe
  tallyEq := hinv.tallyEq
  sentIff := hinv.sentIff
  nodup := hinv.nodup
  noClosed := hinv.noClosed
  outcomes := hinv.outcomes

theorem inv_recv {devs : List Device} {C : Nat} {s : State} (hinv : Inv devs C s)
    {w : Nat} {r : GoString} {rest : List (Nat × GoString)} (hi : s.i < devs.length)
    (hres : s.results = (w, r) :: rest) :
    Inv devs C { s with results := rest, i := s.i + 1,
                        tally := collectIter s.tally (.result r),
                        obs := s.obs ++ [.received w r] } where
  len := hinv.len
  semHolders := hinv.semHolders
  semLe := hinv.semLe
  closedDone := hinv.closedDone
  obsLen := by simp [hinv.obsLen]
  iLe := hi
  tallyEq := by
    simp only [List.map_append, List.map_cons, List.map_nil, collectLoop_snoc, Obs.event]
    rw [← hinv.tallyEq]
  sentIff := by
    intro v
    have := hinv.sentIff v
    simp only [receivedFrom, buffered, hres, List.map_cons] at this
    simp only [receivedFrom, buffered, List.filterMap_append, List.filterMap_cons,
      List.filterMap_nil, Obs.sender, List.append_assoc, List.singleton_append]
    exact this
  nodup := by
    have := hinv.nodup
    simp only [receivedFrom, buffered, hres, List.map_cons] at this
    simp only [receivedFrom, buffered, List.filterMap_append, List.filterMap_cons,
      List.filterMap_nil, Obs.sender, List.append_assoc, List.singleton_append]
    exact this
  noClosed := by
    have := hinv.noClosed
    simp only [List.mem_append, List.mem_singleton, not_or]
    exact ⟨this, by simp⟩
  outcomes := by
    intro v q hvq
    simp only [List.mem_append, List.mem_singleton, Obs.received.injEq] at hvq
    rcases hvq with (hvq | ⟨rfl, rfl⟩) | hvq
    · exact hinv.outcomes v q (Or.inl hvq)
    · exact hinv.outcomes v q (Or.inr (by rw [hres]; exact List.mem_cons_self _ _))
    · exact hinv.outcomes v q (Or.inr (by rw [hres]; exact List.mem_cons_of_mem _ hvq))

theorem inv_timeout {devs : List Device} {C : Nat} {s : State} (hinv : Inv devs C s)
    (hi : s.i < devs.length) :
    Inv devs C { s with i := s.i + 1, tally := collectIter s.tally .timeout,
                        obs := s.obs ++ [.timedOut] } where
  len := hinv.len
  semHolders := hinv.semHolders
  semLe := hinv.semLe
  closedDone := hinv.closedDone
  obsLen := by simp [hinv.obsLen]
  iLe := hi
  tallyEq := by
    simp only [List.map_append, List.map_cons, List.map_nil, collectLoop_snoc, Obs.event]
    rw [← hinv.tallyEq]
  sentIff := by
    intro v
    have := hinv.sentIff v
    simp only [receivedFrom, buffered] at this
    simp only [receivedFrom, buffered, List.filterMap_append, List.filterMap_cons,
      List.filterMap_nil, Obs.sender, List.append_nil]
    exact this
  nodup := by
    have := hinv.nodup
    simp only [receivedFrom, buffered] at this
    simp only [receivedFrom, buffered, List.filterMap_append, List.filterMap_cons,
      List.filterMap_nil, Obs.sender, List.append_nil]
    exact this
  noClosed := by
    have := hinv.noClosed
    simp only [List.mem_append, List.mem_singleton, not_or]
    exact ⟨this, by simp⟩
  outcomes := by
    intro v q hvq
    simp only [List.mem_append, List.mem_singleton, reduceCtorEq, or_false] at hvq
    exact hinv.outcomes v q hvq

/-- Every worker that has finished has its outcome among the received and the
buffered ones, so once all have finished these are at least `N`. -/
theorem allDone_length {devs : List Device} {C : Nat} {s : State} (hinv : Inv devs C s)
    (hd : allDone s) : devs.length ≤ (receivedFrom s ++ buffered s).length := by
  apply le_length_of_all_mem
  intro w hw
  rw [hinv.sentIff w]
  have hw1 : w < s.pcs.length := by rw [hinv.len]; exact hw
  refine ⟨s.pcs[w], List.getElem?_eq_getElem hw1, ?_⟩
  have := allDone_getElem? hd (List.getElem?_eq_getElem hw1)
  rw [this]
  rfl

/-- While the loop still has iterations to run, it cannot find `results` closed and
empty: closing needs all `N` outcomes sent, emptiness needs all of them received. -/
theorem no_closed_receive {devs : List Device} {C : Nat} {s : State} (hinv : Inv devs C s)
    (hi : s.i < devs.length) (hres : s.results = []) (hc : s.closed = true) : False := by
  have h1 := allDone_length hinv (hinv.closedDone hc)
  have h2 : (receivedFrom s).length ≤ s.obs.length := List.length_filterMap_le _ _
  have h3 := hinv.obsLen
  simp only [buffered, hres, List.map_nil, List.append_nil] at h1
  omega

theorem inv_step {devs : List Device} {C : Nat} {s s1 : State} {a : Action}
    (hinv : Inv devs C s) (h : step devs C s a = some s1) : Inv devs C s1 := by
  rcases step_elim h with ⟨w, -, hpc, hlt, rfl⟩ | ⟨w, err, -, hpc, rfl⟩ |
    ⟨w, err, dev, -, hpc, hdev, -, hc, rfl⟩ | ⟨w, -, hpc, hpos, rfl⟩ | ⟨w, -, hpc, rfl⟩ |
    ⟨-, hd, -, rfl⟩ | ⟨w, r, rest, -, hi, hres, rfl⟩ | ⟨-, hi, hres, hc, rfl⟩ |
    ⟨-, hi, -, -, rfl⟩
  · exact inv_move hinv w .spawned .acquired hpc rfl (by simp) (s.sem + 1)
      (by simp [Pc.holds]) (Nat.succ_le_of_lt hlt)
  · exact inv_move hinv w .acquired (.operated err) hpc rfl (by simp) s.sem
      (by simp [Pc.holds]) hinv.semLe
  · exact inv_publish hinv hpc hdev hc
  · exact inv_move hinv w .published .released hpc rfl (by simp) (s.sem - 1)
      (by simp only [Pc.holds]; simp only [if_true, Bool.false_eq_true, if_false]; omega)
      (Nat.le_trans (Nat.sub_le _ _) hinv.semLe)
  · exact inv_move hinv w .released .done hpc rfl (by simp) s.sem
      (by simp [Pc.holds]) hinv.semLe
  · exact inv_close hinv hd
  · exact inv_recv hinv hi hres
  · exact (no_closed_receive hinv hi hres hc).elim
  · exact inv_timeout hinv hi

/-- The invariant holds in every state a run from the initial state ends in. -/
theorem inv_run (devs : List Device) (C : Nat) (acts : List Action) (s : State)
    (h : run devs C (init devs) acts = some s) : Inv devs C s :=
  run_induction devs C (fun _ s => Inv devs C s) (inv_init devs C)
    (fun _ _ _ _ hinv hs => inv_step hinv hs) acts s h

/-! ## Outcome classification and the collection loop -/

theorem success_outcome_has_marker (dev : Device) :
    stringsContains (workerOutcome dev none) successMarker = true := by
  rw [stringsContains_iff]
  refine ⟨dev.index hostnameKey ++ ": ".toList, " WildFire".toList, ?_⟩
  simp only [workerOutcome, List.append_assoc, List.append_cancel_left_eq]
  decide

theorem collectIter_success (t : Tally) (e : Event) :
    (collectIter t e).successCount = t.successCount + (if e.countedSuccess then 1 else 0) := by
  cases e with
  | result r =>
    simp only [collectIter, Event.countedSuccess]
    split <;> simp
  | closed => simp [collectIter, Event.countedSuccess]
  | timeout => simp [collectIter, Event.countedSuccess]

theorem collectIter_failure (t : Tally) (e : Event) :
    (collectIter t e).failureCount =
      t.failureCount + (if e.countedFailure || e.isTimeout then 1 else 0) := by
  cases e with
  | result r =>
    simp only [collectIter, Event.countedFailure, Event.isTimeout]
    split <;> simp [*]
  | closed => simp [collectIter, Event.countedFailure, Event.isTimeout]
  | timeout => simp [collectIter, Event.countedFailure, Event.isTimeout]

theorem foldl_collectIter_success (events : List Event) (t : Tally) :
    (events.foldl collectIter t).successCount =
      t.successCount + events.countP Event.countedSuccess := by
  induction events generalizing t with
  | nil => simp
  | cons e rest ih =>
    rw [List.foldl_cons, ih, collectIter_success, List.countP_cons]
    omega

theorem foldl_collectIter_failure (events : List Event) (t : Tally) :
    (events.foldl collectIter t).failureCount =
      t.failureCount + events.countP Event.countedFailure + events.countP Event.isTimeout := by
  induction events generalizing t with
  | nil => simp
  | cons e rest ih =>
    rw [List.foldl_cons, ih, collectIter_failure, List.countP_cons, List.countP_cons]
    cases e <;> simp [Event.countedFailure, Event.isTimeout] <;> (try split) <;> omega

theorem collectLoop_eq (events : List Event) :
    collectLoop events =
      ⟨events.countP Event.countedSuccess,
        events.countP Event.countedFailure + events.countP Event.isTimeout⟩ := by
  have h1 := foldl_collectIter_success events ⟨0, 0⟩
  have h2 := foldl_collectIter_failure events ⟨0, 0⟩
  simp only [Nat.zero_add] at h1 h2
  unfold collectLoop
  generalize events.foldl collectIter ⟨0, 0⟩ = t at h1 h2
  cases t
  simp only at h1 h2
  rw [h1, h2]

theorem countP_partition (events : List Event) (h : ∀ e ∈ events, e.isClosed = false) :
    events.countP Event.countedSuccess + events.countP Event.countedFailure +
      events.countP Event.isTimeout = events.length := by
  induction events with
  | nil => rfl
  | cons e rest ih =>
    have ih1 := ih (fun x hx => h x (List.mem_cons_of_mem _ hx))
    have he := h e (List.mem_cons_self _ _)
    simp only [List.countP_cons, List.length_cons]
    cases e with
    | result r =>
      cases hr : stringsContains r successMarker <;>
        simp [Event.countedSuccess, Event.countedFailure, Event.isTimeout, hr] <;> omega
    | closed => simp [Event.isClosed] at he
    | timeout => simp [Event.countedSuccess, Event.countedFailure, Event.isTimeout]; omega

/-- C5, at the failing input: the worker of device `fw1` whose operation returned the
error `unexpected command output: Successfully registered` publishes an outcome that
the collection loop counts in `successCount`, leaving `failureCount` unchanged. -/
theorem failure_outcome_counted_as_success :
    workerOutcome (named "fw1")
        (some "unexpected command output: Successfully registered".toList) =
      ("fw1: Failed to register WildFire - " ++
        "unexpected command output: Successfully registered").toList ∧
    collectIter ⟨0, 0⟩
        (.result (workerOutcome (named "fw1")
          (some "unexpected command output: Successfully registered".toList))) =
      ⟨1, 0⟩ := by
  constructor <;> decide

/-- The loop's counters in terms of the branches its own test takes (a fact about
the fold only; what the operations behind the outcomes returned does not enter). -/
theorem collectLoop_branches (events : List Event) :
    (collectLoop events).successCount = events.countP Event.countedSuccess ∧
    (collectLoop events).failureCount =
      events.countP Event.countedFailure + events.countP Event.isTimeout := by
  rw [collectLoop_eq]
  exact ⟨rfl, rfl⟩

theorem found_event_not_closed (founds : List Found) :
    ∀ e ∈ founds.map Found.event, e.isClosed = false := by
  intro e he
  obtain ⟨f, -, rfl⟩ := List.mem_map.mp he
  cases f <;> rfl

/-- The branch counts of the loop against the outcome counts of the iterations, when
no failure outcome among them carries the success marker. -/
theorem countP_found_event (founds : List Found)
    (hclean : ∀ f ∈ founds, f.isFailureOutcome = true → f.event.countedSuccess = false) :
    (founds.map Found.event).countP Event.countedSuccess =
        founds.countP Found.isSuccessOutcome ∧
    (founds.map Found.event).countP Event.countedFailure =
        founds.countP Found.isFailureOutcome ∧
    (founds.map Found.event).countP Event.isTimeout = founds.countP Found.isTimeout := by
  induction founds with
  | nil => exact ⟨rfl, rfl, rfl⟩
  | cons f rest ih =>
    obtain ⟨ih1, ih2, ih3⟩ := ih (fun x hx => hclean x (List.mem_cons_of_mem _ hx))
    have hf := hclean f (List.mem_cons_self _ _)
    simp only [List.map_cons, List.countP_cons, ih1, ih2, ih3]
    cases f with
    | outcome dev err =>
      cases err with
      | none =>
        have hm := success_outcome_has_marker dev
        simp [Found.event, Found.isSuccessOutcome, Found.isFailureOutcome, Found.isTimeout,
          Event.countedSuccess, Event.countedFailure, Event.isTimeout, hm]
      | some e =>
        have hm : stringsContains (workerOutcome dev (some e)) successMarker = false := by
          simpa [Found.event, Event.countedSuccess] using hf rfl
        simp [Found.event, Found.isSuccessOutcome, Found.isFailureOutcome, Found.isTimeout,
          Event.countedSuccess, Event.countedFailure, Event.isTimeout, hm]
    | timeout =>
      simp [Found.event, Found.isSuccessOutcome, Found.isFailureOutcome, Found.isTimeout,
        Event.countedSuccess, Event.countedFailure, Event.isTimeout]

/-- Whenever no failure outcome among the iterations carries the success marker, the
loop ends with `successCount` the number of success outcomes received and
`failureCount` the number of failure outcomes received plus the number of timeouts. -/
theorem collectLoop_found_clean (founds : List Found)
    (hclean : ∀ f ∈ founds, f.isFailureOutcome = true → f.event.countedSuccess = false) :
    collectLoop (founds.map Found.event) =
      ⟨founds.countP Found.isSuccessOutcome,
        founds.countP Found.isFailureOutcome + founds.countP Found.isTimeout⟩ := by
  obtain ⟨h1, h2, h3⟩ := countP_found_event founds hclean
  rw [collectLoop_eq, h1, h2, h3]

/-- The tallies do not depend on the order of the iterations. -/
theorem collectLoop_found_perm (founds reordered : List Found)
    (hp : reordered.Perm founds) :
    collectLoop (reordered.map Found.event) = collectLoop (founds.map Found.event) := by
  have hm := hp.map Found.event
  rw [collectLoop_eq, collectLoop_eq, hm.countP_eq, hm.countP_eq, hm.countP_eq]

/-- When every iteration receives the outcome of a succeeding operation the loop
ends with `successCount = N` and `failureCount = 0`. -/
theorem collectLoop_found_all_success (founds : List Found)
    (hall : ∀ f ∈ founds, f.isSuccessOutcome = true) :
    collectLoop (founds.map Found.event) = ⟨founds.length, 0⟩ := by
  have hclean : ∀ f ∈ founds, f.isFailureOutcome = true → f.event.countedSuccess = false := by
    intro f hf hfail
    have := hall f hf
    cases f with
    | outcome dev err => cases err <;> simp_all [Found.isSuccessOutcome, Found.isFailureOutcome]
    | timeout => simp [Found.isFailureOutcome] at hfail
  have hs : founds.countP Found.isSuccessOutcome = founds.length :=
    List.countP_eq_length.mpr hall
  have h0 : founds.countP Found.isFailureOutcome + founds.countP Found.isTimeout = 0 := by
    have hzf : founds.countP Found.isFailureOutcome = 0 := by
      rw [List.countP_eq_zero]
      intro f hf
      have := hall f hf
      cases f with
      | outcome dev err => cases err <;> simp_all [Found.isSuccessOutcome, Found.isFailureOutcome]
      | timeout => simp [Found.isFailureOutcome]
    have hzt : founds.countP Found.isTimeout = 0 := by
      rw [List.countP_eq_zero]
      intro f hf
      have := hall f hf
      cases f with
      | outcome dev err => simp [Found.isTimeout]
      | timeout => simp [Found.isSuccessOutcome] at this
    omega
  rw [collectLoop_found_clean founds hclean, hs, h0]

/-- C6, at the failing input: over the three iterations of `mislabelledRun` (a success
outcome, a timeout, and the outcome of an operation that failed with an error text
carrying `Successfully registered`), none of which finds the channel closed, one
iteration received a success outcome and two received a failure outcome or timed out,
yet the loop ends with `successCount = 2` and `failureCount = 1`. -/
theorem tally_counts_failure_outcome_as_success :
    mislabelledRun.countP Found.isSuccessOutcome = 1 ∧
    mislabelledRun.countP Found.isFailureOutcome +
      mislabelledRun.countP Found.isTimeout = 2 ∧
    (∀ e ∈ mislabelledRun.map Found.event, e.isClosed = false) ∧
    collectLoop (mislabelledRun.map Found.event) = ⟨2, 1⟩ := by
  refine ⟨by decide, by decide, by decide, by decide⟩

/-! ## The dispatcher and the collection loop -/

theorem obs_events_not_closed {obs : List Obs} (h : Obs.closed ∉ obs) :
    ∀ e ∈ obs.map Obs.event, e.isClosed = false := by
  intro e he
  obtain ⟨o, ho, rfl⟩ := List.mem_map.mp he
  cases o with
  | received w r => rfl
  | closed => exact absurd ho h
  | timedOut => rfl

theorem tally_sum {devs : List Device} {C : Nat} {s : State} (hinv : Inv devs C s) :
    s.tally.successCount + s.tally.failureCount = s.i := by
  have h1 := countP_partition _ (obs_events_not_closed hinv.noClosed)
  rw [hinv.tallyEq, collectLoop_eq, ← hinv.obsLen]
  simp only [List.length_map] at h1
  simp only
  omega

theorem ids_lt {devs : List Device} {C : Nat} {s : State} (hinv : Inv devs C s) :
    ∀ x ∈ receivedFrom s ++ buffered s, x < devs.length := by
  intro x hx
  obtain ⟨pc, hpc, -⟩ := (hinv.sentIff x).mp hx
  rw [← hinv.len]
  exact (List.getElem?_eq_some.mp hpc).1

theorem ids_length_le {devs : List Device} {C : Nat} {s : State} (hinv : Inv devs C s) :
    (receivedFrom s ++ buffered s).length ≤ devs.length :=
  length_le_of_nodup_lt hinv.nodup (ids_lt hinv)

/-- C1: in every run the loop has made as many observations as iterations, never more
than `N`, none of them a receive from the closed channel (the channel is closed only
after every worker has published); the two counters sum to the number of iterations
made; while iterations remain the loop can always take a receive or a timeout; and when
the loop has ended it has made exactly `N` observations with
`successCount + failureCount = N`.  For `N = 0` no observation is made and both
counters are zero. -/
theorem collection_counts_all (devs : List Device) (C : Nat) (acts : List Action)
    (s : State) (h : run devs C (init devs) acts = some s) :
    s.obs.length = s.i ∧ s.i ≤ devs.length ∧ Obs.closed ∉ s.obs ∧
    (s.closed = true → ∀ w, w < devs.length → w ∈ receivedFrom s ++ buffered s) ∧
    s.tally.successCount + s.tally.failureCount = s.i ∧
    (s.i < devs.length →
      (step devs C s .recv).isSome = true ∨ (step devs C s .timeout).isSome = true) ∧
    (s.i = devs.length →
      s.obs.length = devs.length ∧
      s.tally.successCount + s.tally.failureCount = devs.length ∧
      step devs C s .recv = none ∧ step devs C s .timeout = none) ∧
    (devs.length = 0 → s.obs = [] ∧ s.tally = ⟨0, 0⟩) := by
  have hinv := inv_run devs C acts s h
  have hsum := tally_sum hinv
  refine ⟨hinv.obsLen, hinv.iLe, hinv.noClosed, ?_, hsum, ?_, ?_, ?_⟩
  · intro hc w hw
    rw [hinv.sentIff w]
    have hw1 : w < s.pcs.length := by rw [hinv.len]; exact hw
    refine ⟨s.pcs[w], List.getElem?_eq_getElem hw1, ?_⟩
    rw [allDone_getElem? (hinv.closedDone hc) (List.getElem?_eq_getElem hw1)]
    rfl
  · intro hi
    cases hres : s.results with
    | nil =>
      right
      have hc : s.closed = false := by
        cases hcl : s.closed with
        | false => rfl
        | true => exact (no_closed_receive hinv hi hres hcl).elim
      simp [step, hi, hres, hc]
    | cons x rest =>
      left
      simp [step, hi, hres]
  · intro hi
    refine ⟨by rw [hinv.obsLen, hi], by rw [hsum, hi], ?_, ?_⟩
    · simp [step, hi]
    · simp [step, hi]
  · intro h0
    have hi : s.i = 0 := by have := hinv.iLe; omega
    have hobs : s.obs = [] := List.length_eq_zero.mp (by rw [hinv.obsLen, hi])
    refine ⟨hobs, ?_⟩
    rw [hinv.tallyEq, hobs]
    rfl

/-- Instance of C1 on the run `orderlySchedule` over two devices with one token. -/
theorem collection_counts_all_witness :
    run twoDevices 1 (init twoDevices) orderlySchedule = some orderlyFinal ∧
    orderlyFinal.obs.length = orderlyFinal.i ∧
    orderlyFinal.tally.successCount + orderlyFinal.tally.failureCount = orderlyFinal.i :=
  have h := collection_counts_all twoDevices 1 orderlySchedule orderlyFinal (by decide)
  ⟨by decide, h.1, h.2.2.2.2.1⟩

/-- C4: in every reachable state the number of workers that have acquired a token and
not yet released it equals the number of tokens buffered in `sem` and is at most `C`. -/
theorem holders_le_concurrency (devs : List Device) (C : Nat) (acts : List Action)
    (s : State) (h : run devs C (init devs) acts = some s) :
    holders s = s.sem ∧ holders s ≤ C := by
  have hinv := inv_run devs C acts s h
  exact ⟨hinv.semHolders.symm, hinv.semHolders ▸ hinv.semLe⟩

/-- Instance of C4 on the state where the second worker of `orderlySchedule` holds
the only token. -/
theorem holders_le_concurrency_witness :
    run twoDevices 1 (init twoDevices) (orderlySchedule.take 8) = some orderlyMiddle ∧
    holders orderlyMiddle = 1 ∧ holders orderlyMiddle ≤ 1 :=
  ⟨by decide, by decide,
    (holders_le_concurrency twoDevices 1 (orderlySchedule.take 8) orderlyMiddle
      (by decide)).2⟩

theorem length_obs_split (obs : List Obs) (h : Obs.closed ∉ obs) :
    (obs.filterMap Obs.sender).length + obs.count .timedOut = obs.length := by
  induction obs with
  | nil => rfl
  | cons o rest ih =>
    have ih1 := ih (fun hm => h (List.mem_cons_of_mem _ hm))
    cases o with
    | received w r =>
      simp only [List.filterMap_cons, Obs.sender, List.length_cons, List.count_cons]
      simp only [beq_iff_eq, reduceCtorEq, if_false]
      omega
    | closed => exact absurd (List.mem_cons_self _ _) h
    | timedOut =>
      simp only [List.filterMap_cons, Obs.sender, List.length_cons, List.count_cons]
      simp only [beq_self_eq_true, if_true]
      omega

theorem ids_length_of_allDone {devs : List Device} {C : Nat} {s : State}
    (hinv : Inv devs C s) (hd : allDone s) :
    (receivedFrom s ++ buffered s).length = devs.length :=
  Nat.le_antisymm (ids_length_le hinv) (allDone_length hinv hd)

theorem length_complement {l : List Nat} {n : Nat} (hn : l.Nodup) (hl : ∀ x ∈ l, x < n) :
    ((List.range n).filter (fun d => !decide (d ∈ l))).length + l.length = n := by
  have h1 := List.length_eq_length_filter_add (l := List.range n) (fun d => decide (d ∈ l))
  have h2 : ((List.range n).filter (fun d => decide (d ∈ l))).Perm l := by
    rw [List.perm_ext_iff_of_nodup ((List.nodup_range n).filter _) hn]
    intro x
    simp only [List.mem_filter, List.mem_range, decide_eq_true_eq]
    exact ⟨fun hx => hx.2, fun hx => ⟨hl x hx, hx⟩⟩
  have h3 := h2.length_eq
  simp only [List.length_range] at h1
  omega

/-- C7 fails as stated: in the run `slowSchedule` both operations outlast the first
iteration, which times out and is reported for device 1; the second iteration receives
the outcome of device 1 (index 0); the loop ends with the outcome of device 2 (index 1)
published and unread.  Device index 0 is represented twice, device index 1 never. -/
theorem one_to_one_fails :
    run twoDevices 2 (init twoDevices) slowSchedule = some slowFinal ∧
    slowFinal.i = twoDevices.length ∧ allDone slowFinal ∧
    representedDevices slowFinal = [0, 0] ∧
    buffered slowFinal = [1] ∧
    ¬ OneToOne twoDevices slowFinal := by
  refine ⟨by decide, by decide, by decide, by decide, by decide, by decide⟩

/-- C7, amended: the loop makes one observation per iteration, at most `N`, each a
received outcome or a timeout; every received outcome is the one a worker published for
its own device; no published outcome is received twice or both received and still
buffered; once all workers have finished and the loop has ended, the outcomes left
unread are as many as the iterations that timed out, so that without a timeout the
received outcomes are those of the `N` devices, one each; and when the loop has ended
the devices whose outcome was not received are as many as the timeouts. -/
theorem observations_account (devs : List Device) (C : Nat) (acts : List Action)
    (s : State) (h : run devs C (init devs) acts = some s) :
    s.obs.length = s.i ∧ s.i ≤ devs.length ∧
    (receivedFrom s).length + timeouts s = s.i ∧
    (receivedFrom s ++ buffered s).Nodup ∧
    (∀ w r, Obs.received w r ∈ s.obs →
      ∃ dev err, devs[w]? = some dev ∧ r = workerOutcome dev err) ∧
    (allDone s → s.i = devs.length → s.results.length = timeouts s) ∧
    (allDone s → s.i = devs.length → timeouts s = 0 →
      (receivedFrom s).Perm (List.range devs.length)) ∧
    (s.i = devs.length → (unreceived devs s).length = timeouts s) := by
  have hinv := inv_run devs C acts s h
  have hsplit : (receivedFrom s).length + timeouts s = s.i := by
    rw [← hinv.obsLen]
    exact length_obs_split s.obs hinv.noClosed
  have hres : allDone s → s.i = devs.length → s.results.length = timeouts s := by
    intro hd hi
    have h1 := ids_length_of_allDone hinv hd
    simp only [List.length_append, buffered, List.length_map] at h1
    omega
  refine ⟨hinv.obsLen, hinv.iLe, hsplit, hinv.nodup,
    fun w r hm => hinv.outcomes w r (Or.inl hm), hres, ?_, ?_⟩
  case refine_2 =>
    intro hi
    have hnd : (receivedFrom s).Nodup := (List.nodup_append.mp hinv.nodup).1
    have hlt : ∀ x ∈ receivedFrom s, x < devs.length :=
      fun x hx => ids_lt hinv x (List.mem_append_left _ hx)
    have := length_complement hnd hlt
    simp only [unreceived]
    omega
  intro hd hi ht
  have hbuf : buffered s = [] := by
    have := hres hd hi
    simp only [buffered]
    rw [List.map_eq_nil_iff]
    exact List.length_eq_zero.mp (by omega)
  have hnd := hinv.nodup
  rw [hbuf, List.append_nil] at hnd
  rw [List.perm_ext_iff_of_nodup hnd (List.nodup_range _)]
  intro x
  rw [List.mem_range]
  constructor
  · intro hx
    exact ids_lt hinv x (List.mem_append_left _ hx)
  · intro hx
    have hw1 : x < s.pcs.length := by rw [hinv.len]; exact hx
    have : x ∈ receivedFrom s ++ buffered s := by
      rw [hinv.sentIff x]
      refine ⟨s.pcs[x], List.getElem?_eq_getElem hw1, ?_⟩
      rw [allDone_getElem? hd (List.getElem?_eq_getElem hw1)]
      rfl
    rwa [hbuf, List.append_nil] at this

/-- Instance of the amended C7 on the run `slowSchedule`: one timeout, one outcome
left unread. -/
theorem observations_account_witness :
    run twoDevices 2 (init twoDevices) slowSchedule = some slowFinal ∧
    allDone slowFinal ∧ slowFinal.i = twoDevices.length ∧
    timeouts slowFinal = 1 ∧ slowFinal.results.length = timeouts slowFinal ∧
    unreceived twoDevices slowFinal = [1] :=
  have h := observations_account twoDevices 2 slowSchedule slowFinal (by decide)
  ⟨by decide, by decide, by decide, by decide, h.2.2.2.2.2.1 (by decide) (by decide),
    by decide⟩

/-- A worker standing before its send finds `results` open and not full. -/
theorem publish_enabled {devs : List Device} {C : Nat} {s : State} (hinv : Inv devs C s)
    {w : Nat} {err : OpResult} (hpc : s.pcs[w]? = some (.operated err)) :
    s.results.length < devs.length ∧ s.closed = false ∧
      (step devs C s (.publish w)).isSome = true := by
  have hw : w < devs.length := by
    rw [← hinv.len]; exact (List.getElem?_eq_some.mp hpc).1
  have hnot : w ∉ receivedFrom s ++ buffered s := by
    rw [hinv.sentIff w]
    rintro ⟨pc, hpc1, hsent⟩
    rw [hpc] at hpc1
    cases hpc1
    simp [Pc.sent] at hsent
  have hnd : (w :: (receivedFrom s ++ buffered s)).Nodup :=
    List.nodup_cons.mpr ⟨hnot, hinv.nodup⟩
  have hlt : ∀ x ∈ w :: (receivedFrom s ++ buffered s), x < devs.length := by
    intro x hx
    rcases List.mem_cons.mp hx with rfl | hx
    · exact hw
    · exact ids_lt hinv x hx
  have hlen := length_le_of_nodup_lt hnd hlt
  simp only [List.length_cons, List.length_append, buffered, List.length_map] at hlen
  have hres : s.results.length < devs.length := by omega
  have hc : s.closed = false := by
    cases hcl : s.closed with
    | false => rfl
    | true =>
      have := allDone_getElem? (hinv.closedDone hcl) hpc
      cases this
  refine ⟨hres, hc, ?_⟩
  simp [step, hpc, List.getElem?_eq_getElem hw, hres, hc]

/-- A worker that has sent its outcome finds a token in `sem` to take back. -/
theorem release_enabled {devs : List Device} {C : Nat} {s : State} (hinv : Inv devs C s)
    {w : Nat} (hpc : s.pcs[w]? = some .published) :
    (step devs C s (.release w)).isSome = true := by
  have hpos : 0 < s.sem := by
    rw [hinv.semHolders, holders, List.countP_pos_iff]
    exact ⟨.published, List.mem_iff_getElem?.mpr ⟨w, hpc⟩, rfl⟩
  simp [step, hpc, hpos]

/-! ## The worker body -/

theorem workerTrace_snoc (w : Nat) (acts : List Action) (a : Action) :
    workerTrace w (acts ++ [a]) =
      workerTrace w acts ++ (match a.workerStep w with | some k => [k] | none => []) := by
  simp only [workerTrace, List.filterMap_append, List.filterMap_cons, List.filterMap_nil]
  cases a.workerStep w <;> rfl

/-- Worker `v` moves from `old` to `new` by its step `k`, the next one in the body. -/
theorem trace_move {pcs : List Pc} {acts : List Action} {a : Action} {v : Nat}
    {old new : Pc} {k : WorkerStep}
    (ih : ∀ w pc, pcs[w]? = some pc → workerTrace w acts = workerSequence.take pc.rank)
    (hv : pcs[v]? = some old)
    (hself : a.workerStep v = some k)
    (hother : ∀ w, w ≠ v → a.workerStep w = none)
    (hnext : workerSequence.take new.rank = workerSequence.take old.rank ++ [k]) :
    ∀ w pc, (pcs.set v new)[w]? = some pc →
      workerTrace w (acts ++ [a]) = workerSequence.take pc.rank := by
  intro w pc hpc
  rw [workerTrace_snoc]
  by_cases hw : w = v
  · subst hw
    have hlt : w < pcs.length := (List.getElem?_eq_some.mp hv).1
    rw [List.getElem?_set_self hlt] at hpc
    cases hpc
    rw [hself, ih w old hv, hnext]
  · have hne : v ≠ w := fun e => hw e.symm
    rw [List.getElem?_set_ne hne] at hpc
    rw [hother w hw, ih w pc hpc]
    simp

theorem trace_stay {pcs : List Pc} {acts : List Action} {a : Action}
    (ih : ∀ w pc, pcs[w]? = some pc → workerTrace w acts = workerSequence.take pc.rank)
    (hother : ∀ w, a.workerStep w = none) :
    ∀ w pc, pcs[w]? = some pc →
      workerTrace w (acts ++ [a]) = workerSequence.take pc.rank := by
  intro w pc hpc
  rw [workerTrace_snoc, hother w, ih w pc hpc]
  simp

/-- In every run the actions of each worker so far are the first `rank` steps of the
worker body, in its order. -/
theorem trace_run (devs : List Device) (C : Nat) (acts : List Action) (s : State)
    (h : run devs C (init devs) acts = some s) :
    ∀ w pc, s.pcs[w]? = some pc → workerTrace w acts = workerSequence.take pc.rank := by
  refine run_induction devs C
    (fun acts s => ∀ w pc, s.pcs[w]? = some pc →
      workerTrace w acts = workerSequence.take pc.rank) ?_ ?_ acts s h
  · intro w pc hpc
    simp only [init, List.getElem?_replicate] at hpc
    split at hpc
    · cases hpc; rfl
    · cases hpc
  · intro as s a s1 ih hs
    rcases step_elim hs with ⟨v, rfl, hpc, -, rfl⟩ | ⟨v, err, rfl, hpc, rfl⟩ |
      ⟨v, err, dev, rfl, hpc, -, -, -, rfl⟩ | ⟨v, rfl, hpc, -, rfl⟩ | ⟨v, rfl, hpc, rfl⟩ |
      ⟨rfl, -, -, rfl⟩ | ⟨v, r, rest, rfl, -, -, rfl⟩ | ⟨rfl, -, -, -, rfl⟩ |
      ⟨rfl, -, -, -, rfl⟩
    · exact trace_move ih hpc (by simp [Action.workerStep])
        (fun w hne => by simp only [Action.workerStep]; exact if_neg (fun e => hne e.symm)) rfl
    · exact trace_move ih hpc (by simp [Action.workerStep])
        (fun w hne => by simp only [Action.workerStep]; exact if_neg (fun e => hne e.symm)) rfl
    · exact trace_move ih hpc (by simp [Action.workerStep])
        (fun w hne => by simp only [Action.workerStep]; exact if_neg (fun e => hne e.symm)) rfl
    · exact trace_move ih hpc (by simp [Action.workerStep])
        (fun w hne => by simp only [Action.workerStep]; exact if_neg (fun e => hne e.symm)) rfl
    · exact trace_move ih hpc (by simp [Action.workerStep])
        (fun w hne => by simp only [Action.workerStep]; exact if_neg (fun e => hne e.symm)) rfl
    · exact trace_stay ih (fun w => rfl)
    · exact trace_stay ih (fun w => rfl)
    · exact trace_stay ih (fun w => rfl)
    · exact trace_stay ih (fun w => rfl)

/-- In every run the outcomes sent so far are those received and those buffered. -/
theorem publish_count_run (devs : List Device) (C : Nat) (acts : List Action) (s : State)
    (h : run devs C (init devs) acts = some s) :
    acts.countP Action.isPublish = (receivedFrom s ++ buffered s).length := by
  refine run_induction devs C
    (fun acts s => acts.countP Action.isPublish = (receivedFrom s ++ buffered s).length)
    ?_ ?_ acts s h
  · simp [init, receivedFrom, buffered]
  · intro as s a s1 ih hs
    simp only [receivedFrom, buffered, List.length_append, List.length_map] at ih
    rcases step_elim hs with ⟨v, rfl, -, -, rfl⟩ | ⟨v, err, rfl, -, rfl⟩ |
      ⟨v, err, dev, rfl, -, -, -, -, rfl⟩ | ⟨v, rfl, -, -, rfl⟩ | ⟨v, rfl, -, rfl⟩ |
      ⟨rfl, -, -, rfl⟩ | ⟨v, r, rest, rfl, -, hres, rfl⟩ | ⟨rfl, -, -, -, rfl⟩ |
      ⟨rfl, -, -, -, rfl⟩ <;>
    simp only [receivedFrom, buffered, List.length_append, List.length_map,
      List.countP_append, List.countP_cons, List.countP_nil, Action.isPublish,
      List.filterMap_append, List.filterMap_cons, List.filterMap_nil, Obs.sender,
      List.length_cons, List.length_nil] <;>
    (try rw [hres] at ih) <;>
    (try simp only [List.length_cons] at ih) <;>
    simp <;> omega

/-- C8: in every run the actions worker `w` has taken are an initial part of the
sequence acquire, operate, publish, release, signal; a worker that has been admitted
can have its operation return with or without an error, and from then on its next
action (send the outcome, take the token back, signal completion) can always be taken,
whatever the operation returned.  Once all workers have terminated each has taken
exactly the five actions in that order, exactly `N` outcomes have been sent, and no
token is buffered or held. -/
theorem worker_body_order (devs : List Device) (C : Nat) (acts : List Action)
    (s : State) (h : run devs C (init devs) acts = some s) (w : Nat)
    (hw : w < devs.length) :
    (∃ pc, s.pcs[w]? = some pc ∧ workerTrace w acts = workerSequence.take pc.rank) ∧
    workerTrace w acts <+: workerSequence ∧
    (s.pcs[w]? = some .acquired → ∀ err, (step devs C s (.operate w err)).isSome = true) ∧
    (∀ err, s.pcs[w]? = some (.operated err) →
      (step devs C s (.publish w)).isSome = true) ∧
    (s.pcs[w]? = some .published → (step devs C s (.release w)).isSome = true) ∧
    (s.pcs[w]? = some .released → (step devs C s (.signal w)).isSome = true) ∧
    (allDone s →
      workerTrace w acts = workerSequence ∧
      acts.countP Action.isPublish = devs.length ∧
      s.sem = 0 ∧ holders s = 0) := by
  have hinv := inv_run devs C acts s h
  have htr := trace_run devs C acts s h
  have hw1 : w < s.pcs.length := by rw [hinv.len]; exact hw
  have hpc : s.pcs[w]? = some s.pcs[w] := List.getElem?_eq_getElem hw1
  refine ⟨⟨s.pcs[w], hpc, htr w _ hpc⟩, ?_, ?_, ?_, ?_, ?_, ?_⟩
  · rw [htr w _ hpc]
    exact List.take_prefix _ _
  · intro hp err
    simp [step, hp]
  · intro err hp
    exact (publish_enabled hinv hp).2.2
  · intro hp
    exact release_enabled hinv hp
  · intro hp
    simp [step, hp]
  · intro hd
    have hdone := allDone_getElem? hd hpc
    have hh : holders s = 0 := by
      simp only [holders, List.countP_eq_zero]
      intro pc hmem
      rw [hd pc hmem]
      simp [Pc.holds]
    refine ⟨?_, ?_, by rw [hinv.semHolders, hh], hh⟩
    · rw [htr w _ hpc, hdone]
      rfl
    · rw [publish_count_run devs C acts s h, ids_length_of_allDone hinv hd]

/-- Instance of C8 on the first worker of `orderlySchedule`. -/
theorem worker_body_order_witness :
    run twoDevices 1 (init twoDevices) orderlySchedule = some orderlyFinal ∧
    0 < twoDevices.length ∧ allDone orderlyFinal ∧
    workerTrace 0 orderlySchedule = workerSequence ∧
    orderlySchedule.countP Action.isPublish = twoDevices.length :=
  have h := worker_body_order twoDevices 1 orderlySchedule orderlyFinal (by decide) 0
    (by decide)
  ⟨by decide, by decide, by decide, (h.2.2.2.2.2.2 (by decide)).1,
    (h.2.2.2.2.2.2 (by decide)).2.1⟩

/-! ## The results channel -/

/-- C9: in every reachable state `results` buffers at most `N` outcomes, its capacity;
and whenever a worker stands before its send, fewer than `N` are buffered and the
channel is open, so the send can be taken at once. -/
theorem publish_never_blocks (devs : List Device) (C : Nat) (acts : List Action)
    (s : State) (h : run devs C (init devs) acts = some s) :
    s.results.length ≤ devs.length ∧
    ∀ w err, s.pcs[w]? = some (.operated err) →
      s.results.length < devs.length ∧ s.closed = false ∧
      (step devs C s (.publish w)).isSome = true := by
  have hinv := inv_run devs C acts s h
  have hle := ids_length_le hinv
  constructor
  · simp only [List.length_append, buffered, List.length_map] at hle
    omega
  · intro w err hpc
    exact publish_enabled hinv hpc

/-- Instance of C9 on the state of `orderlySchedule` where the second worker stands
before its send. -/
theorem publish_never_blocks_witness :
    run twoDevices 1 (init twoDevices) (orderlySchedule.take 8) = some orderlyMiddle ∧
    orderlyMiddle.pcs[1]? = some (.operated (some "refused".toList)) ∧
    (step twoDevices 1 orderlyMiddle (.publish 1)).isSome = true :=
  have h := publish_never_blocks twoDevices 1 (orderlySchedule.take 8) orderlyMiddle
    (by decide)
  ⟨by decide, by decide, (h.2 1 (some "refused".toList) (by decide)).2.2⟩

/-! ## Patterns that trim to the empty string -/

theorem trimSpace_nil : trimSpace [] = [] := rfl

theorem splitComma_trailing (t : GoString) :
    ∃ p q, splitComma (t ++ [',']) = (p, q ++ [[]]) := by
  induction t with
  | nil => exact ⟨[], [], by decide⟩
  | cons c t ih =>
    obtain ⟨p, q, hpq⟩ := ih
    by_cases hc : (c == ',') = true
    · exact ⟨[], p :: q, by simp [splitComma, hpq, hc]⟩
    · exact ⟨c :: p, q, by simp [splitComma, hpq, hc]⟩

theorem splitComma_doubled (a b : GoString) :
    [] ∈ (splitComma (a ++ ',' :: ',' :: b)).2 := by
  induction a with
  | nil => simp [splitComma]
  | cons c a ih =>
    by_cases hc : (c == ',') = true
    · simp only [List.cons_append, splitComma, hc, if_true]
      exact List.mem_cons_of_mem _ ih
    · simp only [List.cons_append, splitComma, hc]
      exact ih

/-- C12: when some pattern trims to the empty string, `filterDevices` returns every
device of the input, in input order, whatever the other patterns are; and
`parseHostnameFilters` yields such a pattern for every filter string with a trailing,
a leading or a doubled comma. -/
theorem filterDevices_blank_pattern (devices : List Device) (filters : List GoString)
    (h : ∃ f ∈ filters, trimSpace f = []) :
    filterDevices devices filters = devices ∧
    (∀ t : GoString, ∃ f ∈ parseHostnameFilters (t ++ [',']), trimSpace f = []) ∧
    (∀ t : GoString, ∃ f ∈ parseHostnameFilters (',' :: t), trimSpace f = []) ∧
    (∀ a b : GoString,
      ∃ f ∈ parseHostnameFilters (a ++ ',' :: ',' :: b), trimSpace f = []) := by
  refine ⟨?_, ?_, ?_, ?_⟩
  · obtain ⟨f, hf, hfe⟩ := h
    have hlen : ¬ filters.length = 0 := by
      intro h0
      rw [List.length_eq_zero.mp h0] at hf
      exact absurd hf (List.not_mem_nil f)
    simp only [filterDevices, if_neg hlen, filterLoop_eq, List.nil_append]
    rw [List.filter_eq_self]
    intro d _
    rw [matchesAny_eq_any, List.any_eq_true]
    exact ⟨f, hf, by rw [hfe]; exact stringsContains_nil _⟩
  · intro t
    obtain ⟨p, q, hpq⟩ := splitComma_trailing t
    refine ⟨[], ?_, trimSpace_nil⟩
    have hne : ¬ (t ++ [',']) = [] := by simp
    simp only [parseHostnameFilters, if_neg hne, stringsSplitComma, hpq]
    simp
  · intro t
    refine ⟨[], ?_, trimSpace_nil⟩
    simp [parseHostnameFilters, stringsSplitComma, splitComma]
  · intro a b
    refine ⟨[], ?_, trimSpace_nil⟩
    have hne : ¬ (a ++ ',' :: ',' :: b) = [] := by simp
    simp only [parseHostnameFilters, if_neg hne, stringsSplitComma]
    exact List.mem_cons_of_mem _ (splitComma_doubled a b)

/-- Instance of C12 on the filter string `edge,`: all three devices are kept. -/
theorem filterDevices_blank_pattern_witness :
    parseHostnameFilters "edge,".toList = ["edge".toList, []] ∧
    (∃ f ∈ parseHostnameFilters "edge,".toList, trimSpace f = []) ∧
    filterDevices [named "edge-01", named "core-02", named "branch-03"]
        (parseHostnameFilters "edge,".toList) =
      [named "edge-01", named "core-02", named "branch-03"] :=
  ⟨by decide, ⟨[], by decide, by decide⟩,
    (filterDevices_blank_pattern [named "edge-01", named "core-02", named "branch-03"]
      (parseHostnameFilters "edge,".toList) ⟨[], by decide, by decide⟩).1⟩

/-! ## The collection loop and a channel closed early -/

theorem loopRun_append (n : Nat) (dl : Int) (s : LoopState) (as bs : List LoopAction) :
    loopRun n dl s (as ++ bs) = (loopRun n dl s as).bind (fun s1 => loopRun n dl s1 bs) := by
  induction as generalizing s with
  | nil => simp [loopRun]
  | cons a as ih =>
    simp only [List.cons_append, loopRun]
    cases loopStep n dl s a with
    | none => simp
    | some s1 => simp [ih]

/-- Induction over the loop runs from the initial state. -/
theorem loopRun_induction (n : Nat) (dl : Int) (P : LoopState → Prop) (h0 : P loopInit)
    (hstep : ∀ s a s1, P s → loopStep n dl s a = some s1 → P s1) :
    ∀ (acts : List LoopAction) (s : LoopState),
      loopRun n dl loopInit acts = some s → P s := by
  intro acts
  induction acts using List.reverseRecOn with
  | nil =>
    intro s h
    simp only [loopRun, Option.some.injEq] at h
    exact h ▸ h0
  | append_singleton as a ih =>
    intro s h
    rw [loopRun_append, Option.bind_eq_some] at h
    obtain ⟨s1, h1, h2⟩ := h
    simp only [loopRun, Option.bind_eq_some] at h2
    obtain ⟨s3, h3, h4⟩ := h2
    cases h4
    exact hstep s1 a s (ih s1 h1) h3

/-- The shapes a loop step can have. -/
theorem loopStep_elim {n : Nat} {dl : Int} {s s1 : LoopState} {a : LoopAction}
    (h : loopStep n dl s a = some s1) :
    (∃ r, a = .send r ∧ s.closed = false ∧ s1 = { s with buf := s.buf ++ [r] }) ∨
    (a = .close ∧ s.closed = false ∧ s1 = { s with closed := true }) ∨
    (∃ r rest, a = .recv ∧ s.i < n ∧ s.buf = r :: rest ∧
      s1 = { s with buf := rest, i := s.i + 1,
                    tally := collectIter s.tally (.result r),
                    seen := s.seen ++ [.result r],
                    output := s.output ++ iterOutput dl s.i (.result r) }) ∨
    (a = .recv ∧ s.i < n ∧ s.buf = [] ∧ s.closed = true ∧
      s1 = { s with i := s.i + 1, tally := collectIter s.tally .closed,
                    seen := s.seen ++ [.closed],
                    output := s.output ++ iterOutput dl s.i .closed }) ∨
    (a = .timeout ∧ s.i < n ∧ s.buf = [] ∧ s.closed = false ∧
      s1 = { s with i := s.i + 1, tally := collectIter s.tally .timeout,
                    seen := s.seen ++ [.timeout],
                    output := s.output ++ iterOutput dl s.i .timeout }) := by
  cases a with
  | send r =>
    simp only [loopStep] at h
    split at h
    · rename_i hg
      cases h
      exact Or.inl ⟨r, rfl, hg.2, rfl⟩
    · cases h
  | close =>
    simp only [loopStep] at h
    split at h
    · rename_i hg
      cases h
      exact Or.inr (Or.inl ⟨rfl, hg, rfl⟩)
    · cases h
  | recv =>
    simp only [loopStep] at h
    split at h
    · rename_i hi
      split at h
      · rename_i r rest hbuf
        cases h
        exact Or.inr (Or.inr (Or.inl ⟨r, rest, rfl, hi, hbuf, rfl⟩))
      · rename_i hbuf
        split at h
        · rename_i hc
          cases h
          exact Or.inr (Or.inr (Or.inr (Or.inl ⟨rfl, hi, hbuf, hc, rfl⟩)))
        · cases h
    · cases h
  | timeout =>
    simp only [loopStep] at h
    split at h
    · rename_i hg
      cases h
      exact Or.inr (Or.inr (Or.inr (Or.inr ⟨rfl, hg.1, hg.2.1, hg.2.2, rfl⟩)))
    · cases h

theorem foldl_collectIter_closed (k : Nat) (t : Tally) :
    (List.replicate k Event.closed).foldl collectIter t = t := by
  induction k with
  | zero => rfl
  | succ k ih => simp only [List.replicate_succ, List.foldl_cons, collectIter, ih]

theorem collectLoop_closed_tail (pre : List Event) (k : Nat) :
    collectLoop (pre ++ List.replicate k Event.closed) = collectLoop pre := by
  simp only [collectLoop, List.foldl_append, foldl_collectIter_closed]

theorem iterOutput_count (dl : Int) (hd : 0 ≤ dl) (i : Nat) (e : Event) :
    (iterOutput dl i e).count (.info closedMessage) = [e].count Event.closed := by
  cases e with
  | result r => simp [iterOutput, List.count_cons]
  | closed => simp [iterOutput, loggerInfo, hd, List.count_cons]
  | timeout =>
    have hne : ¬ "Timeout waiting for result".toList = closedMessage := by decide
    simp only [iterOutput, loggerInfo, hd, ge_iff_le, if_true, List.singleton_append,
      List.count_cons, List.count_nil, beq_iff_eq, Output.info.injEq, hne, if_false,
      reduceCtorEq, Nat.add_zero]

theorem loopInv_init (n : Nat) (dl : Int) : LoopInv n dl loopInit where
  seenLen := rfl
  iLe := Nat.zero_le n
  tallyEq := rfl
  shape := Or.inl (by simp [loopInit])
  logged := fun _ => rfl

/-- An action of the environment on an open channel: the loop's locals stay. -/
theorem loopInv_env {n : Nat} {dl : Int} {s : LoopState} (hinv : LoopInv n dl s)
    (hc : s.closed = false) (buf1 : List GoString) (closed1 : Bool) :
    LoopInv n dl { s with buf := buf1, closed := closed1 } where
  seenLen := hinv.seenLen
  iLe := hinv.iLe
  tallyEq := hinv.tallyEq
  shape := by
    rcases hinv.shape with hl | ⟨hc1, -⟩
    · exact Or.inl hl
    · rw [hc] at hc1; cases hc1
  logged := hinv.logged

/-- An iteration that finds `e`, the channel then holding `buf1`. -/
theorem loopInv_iter {n : Nat} {dl : Int} {s : LoopState} (hinv : LoopInv n dl s)
    (hi : s.i < n) (e : Event) (buf1 : List GoString)
    (hshape : (∀ x ∈ s.seen ++ [e], x.isClosed = false) ∨
      (s.closed = true ∧ buf1 = [] ∧
        ∃ pre k, s.seen ++ [e] = pre ++ List.replicate (k + 1) Event.closed ∧
          ∀ x ∈ pre, x.isClosed = false)) :
    LoopInv n dl { s with buf := buf1, i := s.i + 1, tally := collectIter s.tally e,
                          seen := s.seen ++ [e],
                          output := s.output ++ iterOutput dl s.i e } where
  seenLen := by simp [hinv.seenLen]
  iLe := hi
  tallyEq := by
    simp only [collectLoop_snoc]
    rw [← hinv.tallyEq]
  shape := hshape
  logged := by
    intro hd
    simp only [List.count_append, hinv.logged hd, iterOutput_count dl hd]

theorem loopInv_step {n : Nat} {dl : Int} {s s1 : LoopState} {a : LoopAction}
    (hinv : LoopInv n dl s) (h : loopStep n dl s a = some s1) : LoopInv n dl s1 := by
  rcases loopStep_elim h with ⟨r, -, hc, rfl⟩ | ⟨-, hc, rfl⟩ | ⟨r, rest, -, hi, hbuf, rfl⟩ |
    ⟨-, hi, hbuf, hc, rfl⟩ | ⟨-, hi, hbuf, hc, rfl⟩
  · exact loopInv_env hinv hc (s.buf ++ [r]) s.closed
  · exact loopInv_env hinv hc s.buf true
  · refine loopInv_iter hinv hi (.result r) rest (Or.inl ?_)
    rcases hinv.shape with hl | ⟨-, hb, -⟩
    · intro x hx
      rcases List.mem_append.mp hx with hx | hx
      · exact hl x hx
      · rw [List.mem_singleton.mp hx]; rfl
    · rw [hbuf] at hb; cases hb
  · have key := loopInv_iter hinv hi .closed s.buf (Or.inr ⟨hc, hbuf, ?_⟩)
    · exact key
    · rcases hinv.shape with hl | ⟨-, -, pre, k, hseen, hpre⟩
      · exact ⟨s.seen, 0, rfl, hl⟩
      · refine ⟨pre, k + 1, ?_, hpre⟩
        rw [hseen, List.append_assoc, ← List.replicate_succ']
  · refine loopInv_iter hinv hi .timeout s.buf (Or.inl ?_)
    rcases hinv.shape with hl | ⟨hc1, -⟩
    · intro x hx
      rcases List.mem_append.mp hx with hx | hx
      · exact hl x hx
      · rw [List.mem_singleton.mp hx]; rfl
    · rw [hc] at hc1; cases hc1

/-- The invariant holds in every state a loop run ends in. -/
theorem loopInv_run (n : Nat) (dl : Int) (acts : List LoopAction) (s : LoopState)
    (h : loopRun n dl loopInit acts = some s) : LoopInv n dl s :=
  loopRun_induction n dl (LoopInv n dl) (loopInv_init n dl)
    (fun _ _ _ hinv hs => loopInv_step hinv hs) acts s h

/-- C11: in every run of the loop in which some iteration finds `results` closed and
empty, the iterations are some `pre` that found an outcome or timed out, followed only
by iterations that found the channel closed.  The closed iterations change neither
counter (the counters are those reached after `pre`, and they sum to the length of
`pre`), each writes the log line `Results channel closed unexpectedly`, the channel
stays closed and empty, the next iteration while one remains is again a closed receive
that leaves the counters as they are, and the loop ends after `n` iterations. -/
theorem closed_receive_tolerated (n : Nat) (debugLevel : Int) (acts : List LoopAction)
    (s : LoopState) (h : loopRun n debugLevel loopInit acts = some s)
    (hc : Event.closed ∈ s.seen) :
    ∃ pre k, s.seen = pre ++ List.replicate (k + 1) Event.closed ∧
      (∀ e ∈ pre, e.isClosed = false) ∧
      s.tally = collectLoop pre ∧
      s.tally.successCount + s.tally.failureCount = pre.length ∧
      pre.length + (k + 1) = s.i ∧ s.i ≤ n ∧
      (0 ≤ debugLevel → s.output.count (.info closedMessage) = k + 1) ∧
      s.closed = true ∧ s.buf = [] ∧
      (s.i < n → loopStep n debugLevel s .timeout = none ∧
        ∃ s1, loopStep n debugLevel s .recv = some s1 ∧ s1.tally = s.tally ∧
          s1.i = s.i + 1 ∧ s1.seen = s.seen ++ [.closed]) ∧
      (s.i = n → s.seen.length = n ∧ loopStep n debugLevel s .recv = none ∧
        loopStep n debugLevel s .timeout = none) := by
  have hinv := loopInv_run n debugLevel acts s h
  rcases hinv.shape with hl | ⟨hcl, hbuf, pre, k, hseen, hpre⟩
  · have := hl _ hc
    simp [Event.isClosed] at this
  · have htally : s.tally = collectLoop pre := by
      rw [hinv.tallyEq, hseen, collectLoop_closed_tail]
    have hsum : s.tally.successCount + s.tally.failureCount = pre.length := by
      have h1 := countP_partition pre hpre
      rw [htally, collectLoop_eq]
      simp only
      omega
    have hlen : pre.length + (k + 1) = s.i := by
      rw [← hinv.seenLen, hseen, List.length_append, List.length_replicate]
    have hcount : (pre ++ List.replicate (k + 1) Event.closed).count Event.closed = k + 1 := by
      rw [List.count_append, List.count_replicate_self, List.count_eq_zero.mpr, Nat.zero_add]
      intro hm
      have := hpre _ hm
      simp [Event.isClosed] at this
    refine ⟨pre, k, hseen, hpre, htally, hsum, hlen, hinv.iLe, ?_, hcl, hbuf, ?_, ?_⟩
    · intro hd
      rw [hinv.logged hd, hseen, hcount]
    · intro hi
      refine ⟨by simp [loopStep, hcl], ?_⟩
      refine ⟨{ s with i := s.i + 1, tally := collectIter s.tally .closed,
                       seen := s.seen ++ [.closed],
                       output := s.output ++ iterOutput debugLevel s.i .closed },
        by simp [loopStep, hi, hbuf, hcl], rfl, rfl, rfl⟩
    · intro hi
      refine ⟨by rw [hinv.seenLen, hi], by simp [loopStep, hi], by simp [loopStep, hi]⟩

/-- Instance of C11 on the run `earlyCloseSchedule` over three devices, with the
logger level of `main`. -/
theorem closed_receive_tolerated_witness :
    loopRun 3 mainDebugLevel loopInit earlyCloseSchedule = some earlyCloseFinal ∧
    Event.closed ∈ earlyCloseFinal.seen ∧
    earlyCloseFinal.seen =
      [Event.result "edge-01: Successfully registered WildFire".toList] ++
        List.replicate 2 Event.closed ∧
    earlyCloseFinal.tally = ⟨1, 0⟩ ∧
    earlyCloseFinal.output.count (.info closedMessage) = 2 ∧
    earlyCloseFinal.i ≤ 3 ∧
    (earlyCloseFinal.closed = true ∧ earlyCloseFinal.buf = []) :=
  have h := closed_receive_tolerated 3 mainDebugLevel earlyCloseSchedule earlyCloseFinal
    (by decide) (by decide)
  ⟨by decide, by decide, by decide, by decide, by decide,
    h.elim (fun _ hk => hk.elim (fun _ hk1 => hk1.2.2.2.2.2.1)),
    h.elim (fun _ hk => hk.elim (fun _ hk1 =>
      ⟨hk1.2.2.2.2.2.2.2.1, hk1.2.2.2.2.2.2.2.2.1⟩))⟩

end Wildfire

namespace SessionAnalyzer

open Wildfire (GoString)

/-! ## `isOlderThanMinutes` -/

theorem wrapInt64_of_inRange (x : Int) (h1 : minDuration ≤ x) (h2 : x ≤ maxDuration) :
    wrapInt64 x = x := by
  unfold wrapInt64
  unfold minDuration at h1
  unfold maxDuration at h2
  omega

/-- While `minutes * time.Minute` fits an `int64` (at most 153722867 minutes either
way), `isOlderThanMinutes` compares the elapsed time with `minutes` minutes exactly. -/
theorem isOlderThanMinutes_inRange (parse : GoString → Except GoString Int) (now t : Int)
    (timestamp : GoString) (minutes : Int) (hp : parse timestamp = .ok t)
    (h1 : -153722867 ≤ minutes) (h2 : minutes ≤ 153722867) :
    isOlderThanMinutes parse now timestamp minutes =
      (decide (now - t > minutes * minuteNs), none) := by
  have hw1 : wrapInt64 minutes = minutes :=
    wrapInt64_of_inRange _ (by unfold minDuration; omega) (by unfold maxDuration; omega)
  have hw2 : wrapInt64 (minutes * minuteNs) = minutes * minuteNs :=
    wrapInt64_of_inRange _ (by unfold minDuration minuteNs; omega)
      (by unfold maxDuration minuteNs; omega)
  simp only [isOlderThanMinutes, hp, hw1, hw2]
  congr 1
  rw [decide_eq_decide]
  unfold timeSub maxDuration minDuration minuteNs
  split
  · omega
  · split <;> omega

theorem isOlderThanMinutes_parse_error (parse : GoString → Except GoString Int) (now : Int)
    (timestamp err : GoString) (minutes : Int) (hp : parse timestamp = .error err) :
    (isOlderThanMinutes parse now timestamp minutes).1 = false ∧
      (isOlderThanMinutes parse now timestamp minutes).2 ≠ none := by
  simp [isOlderThanMinutes, hp]

/-- C10, at the failing input: with `minutes = 153722868` the product
`time.Duration(minutes)*time.Minute` wraps to a negative `int64`, and a timestamp only
one second old is reported as older than 153722868 minutes. -/
theorem isOlderThanMinutes_overflow :
    wrapInt64 (wrapInt64 153722868 * minuteNs) = -9223371993709551616 ∧
    isOlderThanMinutes (fun _ => .ok 0) 1000000000 "Wed Nov 4 09:00:00 2026".toList
        153722868 = (true, none) ∧
    ¬ ((1000000000 : Int) - 0 > 153722868 * minuteNs) := by
  refine ⟨by decide, by decide, by decide⟩

end SessionAnalyzer
